import Mathlib

/-!
Verification of the quest-format core of the `pso_gc_tools` repository against
its natural-language specification.

The C sources are shallowly embedded: byte buffers are `List Nat` (each element
a byte value), machine integers are `Nat`/`Int` with explicit `% 2^w` where the
C arithmetic can wrap, and loops whose termination is part of what is being
verified are given explicit fuel.  Reads that the C performs out of bounds
(indeterminate heap bytes) are modelled as reading `0`, the common content of
freshly mapped heap pages; each such place is marked with a comment.
-/

/-! ## Little-endian byte helpers -/

/-- Little-endian bytes of a 16-bit field, as written by `fwrite` of a packed
struct containing a `uint16_t`. -/
def leBytes2 (v : Nat) : List Nat := [v % 256, v / 256 % 256]

/-- Little-endian bytes of a 32-bit field, as written by `fwrite` of a packed
struct containing a `uint32_t`. -/
def encodeLE4 (v : Nat) : List Nat :=
  [v % 256, v / 256 % 256, v / 65536 % 256, v / 16777216 % 256]

/-- Read a little-endian `uint32_t` at byte offset `off`.  Bytes past the end
of the buffer are modelled as 0 (the C code reads out of bounds there). -/
def readU32 (data : List Nat) (off : Nat) : Nat :=
  data.getD off 0 + 256 * data.getD (off + 1) 0 + 65536 * data.getD (off + 2) 0 +
    16777216 * data.getD (off + 3) 0

/-- A fixed-width character/byte array field of width `n`: the source bytes,
NUL-padded to exactly `n` bytes.  This is the combined effect of `memset(0)`
followed by `strncpy`/`memcpy` of at most `n` bytes in the C code. -/
def padN (n : Nat) (xs : List Nat) : List Nat := (xs ++ List.replicate n 0).take n

/-! ## PRS codec: compressor (fuzziqer_prs.c)

The compressor writes control bits into a previously reserved control byte of
the output buffer (`prs_put_control_bit` and friends).  The state mirrors
`PRS_COMPRESSOR`: `out` is the destination buffer written so far (so the C
`dstptr` is `out.length`), `ctrlIdx` is the index of `controlbyteptr` inside
`out`, and `bitpos` is the bit counter.  A reserved control byte is appended as
a `0` placeholder; in the C code that byte is uninitialized `malloc` memory
(it is normally fully overwritten by subsequent control bits, except at the
very end of the stream, where the C code can leave it unwritten). -/

structure PrsCompressor where
  bitpos : Nat
  ctrlIdx : Nat
  out : List Nat
deriving Repr, DecidableEq

/-- `prs_init`: reserve the first control byte, `dstptr = dst + 1`. -/
def prsInit : PrsCompressor := { bitpos := 0, ctrlIdx := 0, out := [0] }

/-- The bit-write shared by `prs_put_control_bit` and
`prs_put_control_bit_nosave`: `*ctrl = (*ctrl >> 1) | (!!bit << 7); bitpos++`. -/
def prsPutControlBitNosave (pc : PrsCompressor) (bit : Nat) : PrsCompressor :=
  { pc with
    out := pc.out.set pc.ctrlIdx
      (pc.out.getD pc.ctrlIdx 0 / 2 ||| (if bit ≠ 0 then 128 else 0))
    bitpos := pc.bitpos + 1 }

/-- `prs_put_control_save`: when eight bits have been written, reserve the next
control byte at the current output cursor and advance the cursor past it. -/
def prsPutControlSave (pc : PrsCompressor) : PrsCompressor :=
  if 8 ≤ pc.bitpos then
    { bitpos := 0, ctrlIdx := pc.out.length, out := pc.out ++ [0] }
  else pc

/-- `prs_put_control_bit` = bit write followed by the save check. -/
def prsPutControlBit (pc : PrsCompressor) (bit : Nat) : PrsCompressor :=
  prsPutControlSave (prsPutControlBitNosave pc bit)

/-- `prs_put_static_data`: append one data byte at the output cursor. -/
def prsPutStaticData (pc : PrsCompressor) (d : Nat) : PrsCompressor :=
  { pc with out := pc.out ++ [d] }

/-- `prs_rawbyte`: control bit 1 (deferred save), then the literal byte. -/
def prsRawbyte (pc : PrsCompressor) (b : Nat) : PrsCompressor :=
  prsPutControlSave (prsPutStaticData (prsPutControlBitNosave pc 1) b)

/-- Low byte of a C `int` value, two's complement (`v & 0xFF`). -/
def u8ofInt (v : Int) : Nat := (v % 256).toNat

/-- `prs_shortcopy`: `size -= 2`, control bits `0,0,(size>>1)&1,(size&1)`, then
one data byte `offset & 0xFF`. -/
def prsShortcopy (pc : PrsCompressor) (offset : Int) (size : Nat) : PrsCompressor :=
  let s := size - 2
  let pc1 := prsPutControlBit pc 0
  let pc2 := prsPutControlBit pc1 0
  let pc3 := prsPutControlBit pc2 (s / 2 % 2)
  let pc4 := prsPutControlBitNosave pc3 (s % 2)
  prsPutControlSave (prsPutStaticData pc4 (u8ofInt offset))

/-- `prs_longcopy`: control bits `0,1`, then two bytes
`((offset << 3) & 0xF8) | ((size-2) & 7)` and `(offset >> 5) & 0xFF`
(inline length form, `size ≤ 9`), or the same two bytes without the length bits
plus an explicit `size - 1` byte.  `offset` is negative; `offset << 3` is
`offset * 8` in two's complement and `offset >> 5` is the arithmetic shift,
i.e. floor division by 32 (`Int.ediv` for a positive divisor). -/
def prsLongcopy (pc : PrsCompressor) (offset : Int) (size : Nat) : PrsCompressor :=
  if size ≤ 9 then
    let pc1 := prsPutControlBit pc 0
    let pc2 := prsPutControlBitNosave pc1 1
    let pc3 := prsPutStaticData pc2 (u8ofInt (offset * 8) &&& 0xF8 ||| ((size - 2) &&& 7))
    let pc4 := prsPutStaticData pc3 (u8ofInt (Int.ediv offset 32))
    prsPutControlSave pc4
  else
    let pc1 := prsPutControlBit pc 0
    let pc2 := prsPutControlBitNosave pc1 1
    let pc3 := prsPutStaticData pc2 (u8ofInt (offset * 8) &&& 0xF8)
    let pc4 := prsPutStaticData pc3 (u8ofInt (Int.ediv offset 32))
    let pc5 := prsPutStaticData pc4 (size - 1)
    prsPutControlSave pc5

/-- `prs_copy`: short form when `offset > -0x100` and `size ≤ 5`, else long
form.  (The C `pc->srcptr += size` is accounted for in the main loop.) -/
def prsCopy (pc : PrsCompressor) (offset : Int) (size : Nat) : PrsCompressor :=
  if offset > -256 ∧ size ≤ 5 then prsShortcopy pc offset size
  else prsLongcopy pc offset size

/-- `prs_finish`: control bits `0,1`; if the current control byte is partially
filled, shift its accumulated bits down (`*ctrl = (*ctrl << bitpos) >> 8`,
stored through a `uint8_t`); then two zero data bytes.  When the `0,1` bits
complete a control byte exactly, a fresh control byte is reserved and never
written: in the C code that byte is uninitialized memory inside the returned
stream; here it is the `0` placeholder. -/
def prsFinish (pc : PrsCompressor) : PrsCompressor :=
  let pc1 := prsPutControlBit (prsPutControlBit pc 0) 1
  let pc2 :=
    if pc1.bitpos ≠ 0 then
      { pc1 with
        out := pc1.out.set pc1.ctrlIdx
          (pc1.out.getD pc1.ctrlIdx 0 * 2 ^ pc1.bitpos / 256 % 256) }
    else pc1
  prsPutStaticData (prsPutStaticData pc2 0) 0

/-- `memcmp(src + y, src + x, n) == 0`.  The C compare can run past the end of
the source buffer (for `x + n > len`); bytes past the end are modelled as 0. -/
def memeq (src : List Nat) (y x n : Nat) : Bool :=
  (List.range n).all fun i => src.getD (y + i) 0 == src.getD (x + i) 0

/-- The `do xsize++; while (...)` match-extension loop of `prs_compress`,
returning the final (post-decrement) `xsize`.  The loop condition requires
`xsize < 256`, so fuel 256 is never exhausted. -/
def extendMatch (src : List Nat) (y x : Nat) : Nat → Nat → Nat
  | 0, xsize => xsize
  | fuel + 1, xsize =>
    let n := xsize + 1
    if memeq src y x n ∧ n < 256 ∧ y + n < x ∧ x + n ≤ src.length then
      extendMatch src y x fuel n
    else xsize

/-- The backward scan `for (y = x-3; y > 0 && y > x-0x1FF0 && xsize < 255; y--)`
of `prs_compress`.  `xsize` is the value carried from the previous iteration
(the C reuses the variable), `lsoffset`/`lssize` the best match so far.  Each
iteration assigns `xsize = 3`, tests a 3-byte `memcmp`, extends on success and
records strictly longer matches. -/
def findMatchLoop (src : List Nat) (x : Nat) :
    Nat → Int → Int → Nat → Nat → Int × Nat
  | 0, _, lsoffset, lssize, _ => (lsoffset, lssize)
  | fuel + 1, y, lsoffset, lssize, xsize =>
    if y > 0 ∧ y > (x : Int) - 0x1FF0 ∧ xsize < 255 then
      if memeq src y.toNat x 3 then
        let xsize' := extendMatch src y.toNat x 256 3
        if lssize < xsize' then
          findMatchLoop src x fuel (y - 1) (-((x : Int) - y)) xsize' xsize'
        else findMatchLoop src x fuel (y - 1) lsoffset lssize xsize'
      else findMatchLoop src x fuel (y - 1) lsoffset lssize 3
    else (lsoffset, lssize)

/-- The per-position match search of `prs_compress`: start at `y = x - 3` with
`lsoffset = lssize = xsize = 0`.  At most `x` iterations run. -/
def findLongestMatch (src : List Nat) (x : Nat) : Int × Nat :=
  findMatchLoop src x (x + 1) ((x : Int) - 3) 0 0 0

/-- The main `for (x = 0; x < size; x++)` loop of `prs_compress`: emit a
literal when no match of length ≥ 3 was found, else emit a copy and advance
`x` by the match length.  `x` advances by at least 1 per iteration, so fuel
`src.length + 1` is never exhausted. -/
def prsCompressLoop (src : List Nat) : Nat → Nat → PrsCompressor → PrsCompressor
  | 0, _, pc => pc
  | fuel + 1, x, pc =>
    if x < src.length then
      let m := findLongestMatch src x
      if m.2 = 0 then prsCompressLoop src fuel (x + 1) (prsRawbyte pc (src.getD x 0))
      else prsCompressLoop src fuel (x + m.2) (prsCopy pc m.1 m.2)
    else pc

/-- `prs_compress`: the full compressed stream (the C function returns its
length, `pc.dstptr - pc.dstptr_orig`). -/
def prs_compress (src : List Nat) : List Nat :=
  (prsFinish (prsCompressLoop src (src.length + 1) 0 prsInit)).out

/-- `prs_max_compressed_size` (borrowed from libsylverant):
`len += 2; return len + (len >> 3) + ((len & 7) ? 1 : 0)`. -/
def prs_max_compressed_size (len : Nat) : Nat :=
  let len2 := len + 2
  len2 + len2 / 8 + (if len2 % 8 ≠ 0 then 1 else 0)

/-! ## PRS codec: decompressor and size-only walk (fuzziqer_prs.c)

Both functions share the control-bit reading state (`bitpos`, `currentbyte`,
`sourceptr`).  Reads past the end of the compressed stream — undefined
behaviour in the C — are modelled as failure (`none`), and a back-reference
that would read before the start of the destination buffer likewise.  The
size-only walk performs the same source reads but never touches a destination
buffer, so it has no such destination check.  Fuel: every loop iteration
advances `srcIdx` by at least one, so `src.length + 1` iterations suffice. -/

structure PrsBits where
  bitpos : Nat
  currentbyte : Nat
  srcIdx : Nat
deriving Repr, DecidableEq

/-- One control-bit read: `bitpos--; if (bitpos == 0) reload; flag = cb & 1;
cb >>= 1`. -/
def prsGetBit (src : List Nat) (s : PrsBits) : Option (Nat × PrsBits) :=
  if s.bitpos - 1 = 0 then
    match src.get? s.srcIdx with
    | none => none
    | some b => some (b % 2, ⟨8, b / 2, s.srcIdx + 1⟩)
  else some (s.currentbyte % 2, ⟨s.bitpos - 1, s.currentbyte / 2, s.srcIdx⟩)

/-- The byte-at-a-time overlapped copy `*destptr++ = *ptr_reg++` repeated
`len` times: the source region may overlap the bytes being appended. -/
def prsCopyBytes (dst : List Nat) (start : Nat) : Nat → List Nat
  | 0 => dst
  | n + 1 => prsCopyBytes (dst ++ [dst.getD start 0]) (start + 1) n

/-- The long back-reference length determination shared by `prs_decompress`
and `prs_decompress_size`: `r3 = b1 & 7`; when zero, read one more byte and
use `byte + 1`, else use `r3 + 2`. -/
def prsReadLen (src : List Nat) (b1 : Nat) (s3 : PrsBits) : Option (Nat × PrsBits) :=
  if b1 &&& 7 = 0 then
    match src.get? s3.srcIdx with
    | none => none
    | some b3 => some (b3 + 1, { s3 with srcIdx := s3.srcIdx + 1 })
  else some ((b1 &&& 7) + 2, s3)

/-- The main loop of `prs_decompress`. -/
def prsDecompressLoop (src : List Nat) : Nat → PrsBits → List Nat → Option (List Nat)
  | 0, _, _ => none
  | fuel + 1, s, dst =>
    match prsGetBit src s with
    | none => none
    | some (flag, s1) =>
      if flag = 1 then
        match src.get? s1.srcIdx with
        | none => none
        | some b => prsDecompressLoop src fuel { s1 with srcIdx := s1.srcIdx + 1 } (dst ++ [b])
      else
        match prsGetBit src s1 with
        | none => none
        | some (flag2, s2) =>
          if flag2 = 1 then
            match src.get? s2.srcIdx, src.get? (s2.srcIdx + 1) with
            | some b1, some b2 =>
              let offsetw := b2 * 256 + b1
              let s3 : PrsBits := { s2 with srcIdx := s2.srcIdx + 2 }
              if offsetw = 0 then some dst
              else
                match prsReadLen src b1 s3 with
                | none => none
                | some (len, s4) =>
                  if len = 0 then prsDecompressLoop src fuel s4 dst
                  else
                    -- displacement (offsetw >> 3) | 0xFFFFE000 = offsetw/8 - 8192
                    if dst.length + offsetw / 8 < 8192 then none
                    else prsDecompressLoop src fuel s4
                      (prsCopyBytes dst (dst.length + offsetw / 8 - 8192) len)
            | _, _ => none
          else
            match prsGetBit src s2 with
            | none => none
            | some (g1, s3) =>
              match prsGetBit src s3 with
              | none => none
              | some (g2, s4) =>
                -- r3 accumulates the two bits MSB first: r3 = (r3 << 1) | flag
                match src.get? s4.srcIdx with
                | none => none
                | some b =>
                  let len := (g1 * 2 ||| g2) + 2
                  let s5 : PrsBits := { s4 with srcIdx := s4.srcIdx + 1 }
                  if len = 0 then prsDecompressLoop src fuel s5 dst
                  else
                    -- displacement b | 0xFFFFFF00 = b - 256
                    if dst.length + b < 256 then none
                    else prsDecompressLoop src fuel s5
                      (prsCopyBytes dst (dst.length + b - 256) len)

/-- `prs_decompress`: load the first control byte (`bitpos` starts at 9), then
run the token loop; returns the decompressed bytes, or `none` where the C
would read out of bounds. -/
def prs_decompress (src : List Nat) : Option (List Nat) :=
  match src.get? 0 with
  | none => none
  | some b0 => prsDecompressLoop src (src.length + 1) ⟨9, b0, 1⟩ []

/-- The main loop of `prs_decompress_size`: the same source reads and state
transitions as `prsDecompressLoop`, with the destination replaced by a length
counter.  The literal branch advances past the literal byte without reading
it (`sourceptr++; destptr++;`), and a back-reference updates only the counter
(no destination bound check, since nothing is read or written). -/
def prsDecompressSizeLoop (src : List Nat) : Nat → PrsBits → Nat → Option Nat
  | 0, _, _ => none
  | fuel + 1, s, destLen =>
    match prsGetBit src s with
    | none => none
    | some (flag, s1) =>
      if flag = 1 then
        prsDecompressSizeLoop src fuel { s1 with srcIdx := s1.srcIdx + 1 } (destLen + 1)
      else
        match prsGetBit src s1 with
        | none => none
        | some (flag2, s2) =>
          if flag2 = 1 then
            match src.get? s2.srcIdx, src.get? (s2.srcIdx + 1) with
            | some b1, some b2 =>
              let offsetw := b2 * 256 + b1
              let s3 : PrsBits := { s2 with srcIdx := s2.srcIdx + 2 }
              if offsetw = 0 then some destLen
              else
                match prsReadLen src b1 s3 with
                | none => none
                | some (len, s4) =>
                  if len = 0 then prsDecompressSizeLoop src fuel s4 destLen
                  else prsDecompressSizeLoop src fuel s4 (destLen + len)
            | _, _ => none
          else
            match prsGetBit src s2 with
            | none => none
            | some (g1, s3) =>
              match prsGetBit src s3 with
              | none => none
              | some (g2, s4) =>
                match src.get? s4.srcIdx with
                | none => none
                | some _b =>
                  let len := (g1 * 2 ||| g2) + 2
                  let s5 : PrsBits := { s4 with srcIdx := s4.srcIdx + 1 }
                  if len = 0 then prsDecompressSizeLoop src fuel s5 destLen
                  else prsDecompressSizeLoop src fuel s5 (destLen + len)

/-- `prs_decompress_size`: same framing as `prs_decompress`. -/
def prs_decompress_size (src : List Nat) : Option Nat :=
  match src.get? 0 with
  | none => none
  | some b0 => prsDecompressSizeLoop src (src.length + 1) ⟨9, b0, 1⟩ 0

/-! ## Stream cipher (download-quest payload encryption)

Modelled from the spec: `CRYPT_CreateKeys`/`CRYPT_CryptData` come from
libsylverant, which is not part of this repository's sources.  The spec
describes the "PC" cipher as a deterministic keystream of 32-bit words derived
from a 32-bit seed, XORed over the buffer in 4-byte little-endian units.  The
keystream generator is abstracted as a function `ks : seed → word index →
word`; byte `i` of the buffer is XORed with byte `i % 4` of word `i / 4`.
Every theorem below holds for an arbitrary `ks`, hence for the concrete
keystream of the library. -/

/-- Byte `i` of the keystream: byte `i % 4` of word `i / 4`. -/
def ksByte (ks : Nat → Nat → Nat) (key i : Nat) : Nat :=
  ks key (i / 4) / 2 ^ (8 * (i % 4)) % 256

/-- XOR the keystream over a buffer, starting at byte index `i`. -/
def cryptBytesFrom (ks : Nat → Nat → Nat) (key : Nat) : Nat → List Nat → List Nat
  | _, [] => []
  | i, b :: bs => (b ^^^ ksByte ks key i) :: cryptBytesFrom ks key (i + 1) bs

/-- Modelled from the spec: `crypt` — in-place XOR of the keystream over the
whole buffer. -/
def cryptBytes (ks : Nat → Nat → Nat) (key : Nat) (bs : List Nat) : List Nat :=
  cryptBytesFrom ks key 0 bs

/-! ## QST container records (quests.h / quests.c)

`QST_HEADER` is 60 bytes and `QST_DATA_CHUNK` is 1048 bytes
(1 + 1 + 2 + 16 + 1024 + 4, packed).  Records are modelled structurally, with
byte serializers reproducing the packed layout written by `fwrite`. -/

structure QstHeaderRec where
  pktId : Nat
  pktFlags : Nat
  pktSize : Nat
  name : List Nat
  unused : Nat
  flags : Nat
  filename : List Nat
  size : Nat
deriving Repr, DecidableEq

structure QstChunkRec where
  pktId : Nat
  pktFlags : Nat
  pktSize : Nat
  filename : List Nat
  data : List Nat
  size : Nat
deriving Repr, DecidableEq

/-- `generate_qst_header` (quests.c): zeroed struct, `pkt_id = 0xA6`,
`pkt_size = sizeof(QST_HEADER) = 60`, name and filename `strncpy`ed into the
zeroed fixed-width fields, `size = src_file_size`. -/
def generate_qst_header (srcFile : List Nat) (srcFileSize : Nat) (qname : List Nat) :
    QstHeaderRec :=
  { pktId := 0xA6, pktFlags := 0, pktSize := 60, name := padN 32 qname,
    unused := 0, flags := 0, filename := padN 16 srcFile, size := srcFileSize }

/-- `generate_qst_data_chunk` (quests.c): zeroed struct, `pkt_id = 0xA7`,
`pkt_flags = counter` (a `uint8_t`), `pkt_size = sizeof(QST_DATA_CHUNK) =
1048`, filename `strncpy`ed into the zeroed 16-byte field, `size` bytes of
`src` copied into the zeroed 1024-byte data field. -/
def generate_qst_data_chunk (baseFilename : List Nat) (counter : Nat) (src : List Nat)
    (size : Nat) : QstChunkRec :=
  { pktId := 0xA7, pktFlags := counter % 256, pktSize := 1048,
    filename := padN 16 baseFilename, data := padN 1024 src, size := size }

/-- Serialized bytes of a `QST_HEADER` record (packed, little-endian). -/
def qstHeaderBytes (h : QstHeaderRec) : List Nat :=
  [h.pktId % 256, h.pktFlags % 256] ++ leBytes2 h.pktSize ++ padN 32 h.name ++
    leBytes2 h.unused ++ leBytes2 h.flags ++ padN 16 h.filename ++ encodeLE4 h.size

/-- Serialized bytes of a `QST_DATA_CHUNK` record (packed, little-endian). -/
def qstChunkBytes (c : QstChunkRec) : List Nat :=
  [c.pktId % 256, c.pktFlags % 256] ++ leBytes2 c.pktSize ++ padN 16 c.filename ++
    padN 1024 c.data ++ encodeLE4 c.size

/-! ## QST writer (bindat_to_gcdl main) -/

/-- The per-file half of the chunk-writing loop of `bindat_to_gcdl`: take
`size = min(1024, remaining)` bytes, emit a chunk, advance, increment the
`uint8_t` counter, stop once the position reaches the end (a last chunk of
exactly 1024 bytes is still the final one). -/
def chunkSplit (base : List Nat) (rest : List Nat) (counter : Nat) : List QstChunkRec :=
  if h : rest.length ≤ 1024 then
    [generate_qst_data_chunk base counter rest rest.length]
  else
    generate_qst_data_chunk base counter (rest.take 1024) 1024 ::
      chunkSplit base (rest.drop 1024) (counter + 1)
termination_by rest.length
decreasing_by simp only [List.length_drop]; omega

/-- The alternation of the `while (!bin_done || !dat_done)` loop: one bin
chunk then one dat chunk per iteration while both files have data left; once
one file is done, the other's chunks continue alone. -/
def interleaveChunks : List QstChunkRec → List QstChunkRec → List QstChunkRec
  | [], ys => ys
  | x :: xs, [] => x :: xs
  | x :: xs, y :: ys => x :: y :: interleaveChunks xs ys

/-- A record of a `.qst` file, as read or written sequentially. -/
inductive QstPacket where
  | header (h : QstHeaderRec)
  | chunk (c : QstChunkRec)
deriving Repr, DecidableEq

/-- The record stream written by `bindat_to_gcdl` for two final payloads:
`qst_bin_header`, `qst_dat_header`, then the interleaved chunks. -/
def qstFrameRecords (binBase datBase qname finalBin finalDat : List Nat) : List QstPacket :=
  QstPacket.header (generate_qst_header binBase finalBin.length qname) ::
    QstPacket.header (generate_qst_header datBase finalDat.length qname) ::
    (interleaveChunks (chunkSplit binBase finalBin 0) (chunkSplit datBase finalDat 0)).map
      QstPacket.chunk

/-- The download preparation of `bindat_to_gcdl` for one file: an 8-byte
wrapper `{decompressed_size = decompSize + 8, crypt_key = key}` (stored as a
`uint32_t` each), followed by the compressed payload encrypted in place with
the crypt key.  No padding of any kind is applied: the cipher is invoked with
exactly `compressed.length` bytes. -/
def finalPayload (ks : Nat → Nat → Nat) (key decompSize : Nat) (compressed : List Nat) :
    List Nat :=
  encodeLE4 ((decompSize + 8) % 4294967296) ++ encodeLE4 (key % 4294967296) ++
    cryptBytes ks (key % 4294967296) compressed

/-- The full record stream of a download `.qst` produced by `bindat_to_gcdl`
from compressed payloads: wrapper + encryption, then chunk framing.  `kb` and
`kd` are the two `rand()` crypt keys. -/
def bindatToGcdlRecords (ks : Nat → Nat → Nat) (kb kd decompB decompD : Nat)
    (cbin cdat binBase datBase qname : List Nat) : List QstPacket :=
  qstFrameRecords binBase datBase qname (finalPayload ks kb decompB cbin)
    (finalPayload ks kd decompD cdat)

/-! ## QST reader (quest_info: load_quest_from_qst / decrypt_qst_bindat) -/

/-- The C-string view of a fixed-width byte field: bytes up to the first NUL.
If the field has no NUL at all, the C `strlen`-style scan would continue into
adjacent struct bytes; the model stops at the field width. -/
def cString (xs : List Nat) : List Nat := xs.takeWhile (· ≠ 0)

/-- Modelled from the spec: `string_ends_with` is declared in utils.h but its
definition is not among the sources here; standard suffix test. -/
def string_ends_with (s sfx : List Nat) : Bool :=
  decide (sfx.length ≤ s.length) && (s.drop (s.length - sfx.length) == sfx)

/-- `strncmp(a, b, n) == 0`: compare until a difference (unequal), a NUL on
both sides (equal), or `n` bytes (equal).  All compared fields here are
exactly 16 bytes, so the length-mismatch cases are unreachable. -/
def strncmpEq : Nat → List Nat → List Nat → Bool
  | 0, _, _ => true
  | _ + 1, [], [] => true
  | n + 1, a :: xs, b :: ys => if a ≠ b then false else if a = 0 then true else strncmpEq n xs ys
  | _ + 1, _, _ => false

/-- Bytes of ".bin". -/
def dotBin : List Nat := [46, 98, 105, 110]

/-- Bytes of ".dat". -/
def dotDat : List Nat := [46, 100, 97, 116]

/-- Reader state: `bin_filename`/`dat_filename` (16-byte arrays, initially
`""`), the declared sizes from the header records, and the reassembly
buffers.  In the C the declared lengths and buffers are uninitialized until a
header record arrives; they are modelled as `0`/`[]`. -/
structure QstReadState where
  binName : List Nat
  datName : List Nat
  binDeclared : Nat
  datDeclared : Nat
  binAcc : List Nat
  datAcc : List Nat
deriving Repr, DecidableEq

def initQstReadState : QstReadState :=
  { binName := List.replicate 16 0, datName := List.replicate 16 0,
    binDeclared := 0, datDeclared := 0, binAcc := [], datAcc := [] }

/-- The record loop of `load_quest_from_qst`.  A header record whose filename
ends ".bin"/".dat" (re)initializes the respective buffer and records the
declared size; any other header filename is `ERROR_BAD_DATA` (4).  A chunk
record is appended — `memcpy(buf + pos, data.data, data.size)` — to whichever
buffer's filename matches by `strncmp(..., 16)`, with no check of the
accumulated count against the declared size; a chunk matching neither is
`ERROR_BAD_DATA`.  At end of stream the function returns `SUCCESS` with
whatever has accumulated (both the `break` when both buffers exist and the
`feof` exit return success). -/
def loadQstLoop : List QstPacket → QstReadState → Except Nat QstReadState
  | [], s => .ok s
  | QstPacket.header h :: rest, s =>
    if string_ends_with (cString h.filename) dotBin then
      loadQstLoop rest
        { s with binName := padN 16 (cString h.filename), binDeclared := h.size, binAcc := [] }
    else if string_ends_with (cString h.filename) dotDat then
      loadQstLoop rest
        { s with datName := padN 16 (cString h.filename), datDeclared := h.size, datAcc := [] }
    else .error 4
  | QstPacket.chunk c :: rest, s =>
    if strncmpEq 16 c.filename s.binName then
      loadQstLoop rest { s with binAcc := s.binAcc ++ c.data.take c.size }
    else if strncmpEq 16 c.filename s.datName then
      loadQstLoop rest { s with datAcc := s.datAcc ++ c.data.take c.size }
    else .error 4

/-- `load_quest_from_qst` over a record stream. -/
def load_quest_from_qst (ps : List QstPacket) : Except Nat QstReadState :=
  loadQstLoop ps initQstReadState

/-- `decrypt_qst_bindat`: read each file's `crypt_key` from bytes 4..7 of its
reassembled payload, decrypt everything after the 8-byte wrapper in place,
and drop the wrapper. -/
def decrypt_qst_bindat (ks : Nat → Nat → Nat) (binData datData : List Nat) :
    List Nat × List Nat :=
  (cryptBytes ks (readU32 binData 4) (binData.drop 8),
    cryptBytes ks (readU32 datData 4) (datData.drop 8))

/-! ## Bin/dat validators and recovery (quests.c) -/

/-- The decompressed `.bin` header fields used by the validator and recovery
handler (`QUEST_BIN_HEADER`).  `name` is the 32-byte Shift-JIS field. -/
structure QuestBinHeader where
  object_code_offset : Nat
  function_offset_table_offset : Nat
  bin_size : Nat
  xffffffff : Nat
  download : Nat
  unknown : Nat
  quest_number_byte : Nat
  episode : Nat
  name : List Nat
deriving Repr, DecidableEq

/-- `validate_quest_bin` (quests.c): flag bits 1 = OBJECT_CODE_OFFSET,
2 = LARGER_BIN_SIZE, 4 = SMALLER_BIN_SIZE, 8 = NAME, 16 = EPISODE.
`strlen(name) == 0` is the first byte of `name` being NUL. -/
def validate_quest_bin (h : QuestBinHeader) (length : Nat) : Nat :=
  let r1 := if h.object_code_offset ≠ 468 then 0 ||| 1 else 0
  let r2 :=
    if h.bin_size < length then r1 ||| 4
    else if length < h.bin_size then r1 ||| 2
    else r1
  let r3 := if (h.name.takeWhile (· ≠ 0)).length = 0 then r2 ||| 8 else r2
  if 1 < h.episode then r3 ||| 16 else r3

/-- `handle_quest_bin_validation_issues` (quests.c): clears SMALLER (4) and
truncates the length to `bin_size`; clears LARGER (2) unconditionally and
appends one zero byte only when the length is exactly one short of
`bin_size`; clears EPISODE (16) without touching the buffer.  Returns the
remaining validation result and the adjusted buffer length (the appended byte
is zero; the header bytes are unchanged). -/
def handle_quest_bin_validation_issues (r : Nat) (h : QuestBinHeader) (len : Nat) :
    Nat × Nat :=
  let p1 : Nat × Nat := if r &&& 4 ≠ 0 then (r &&& 4294967291, h.bin_size) else (r, len)
  let p2 : Nat × Nat :=
    if p1.1 &&& 2 ≠ 0 then
      (p1.1 &&& 4294967293, if p1.2 + 1 = h.bin_size then p1.2 + 1 else p1.2)
    else p1
  (if p2.1 &&& 16 ≠ 0 then p2.1 &&& 4294967279 else p2.1, p2.2)

/-- The table walk of `validate_quest_dat` (quests.c): at each offset read the
16-byte table header; flag bit 1 (`QUESTDAT_ERROR_TYPE`) when `type > 5`; an
all-zero header at exactly the end of the buffer is the EOF sentinel
(ignored), an earlier all-zero header sets bit 4 (`QUESTDAT_ERROR_PREMATURE_EOF`)
and breaks; otherwise flag bit 2 (`QUESTDAT_ERROR_TABLE_BODY_SIZE`) when
`table_size == table_body_size - sizeof(QUEST_DAT_TABLE_HEADER)` — the
subtraction is performed in `size_t` (64-bit) arithmetic, hence the modulus.
The offset then advances by `16 + table_body_size` in `uint32_t` arithmetic,
which can wrap.  `none` means the fuel ran out, i.e. more iterations than the
fuel allows (for the wrapping inputs of claim C10, any amount of fuel runs
out). -/
def validateDatLoop (data : List Nat) : Nat → Nat → Nat → Option Nat
  | 0, _, _ => none
  | fuel + 1, offset, result =>
    if offset < data.length then
      let ty := readU32 data offset
      let tsize := readU32 data (offset + 4)
      let area := readU32 data (offset + 8)
      let bsize := readU32 data (offset + 12)
      let r1 := if 5 < ty then result ||| 1 else result
      if ty = 0 ∧ tsize = 0 ∧ area = 0 ∧ bsize = 0 then
        if offset + 16 = data.length then
          validateDatLoop data fuel ((offset + 16 + bsize) % 4294967296) r1
        else some (r1 ||| 4)
      else
        let r2 :=
          if tsize = (bsize + 18446744073709551600) % 18446744073709551616 then r1 ||| 2
          else r1
        validateDatLoop data fuel ((offset + 16 + bsize) % 4294967296) r2
    else some result

/-- `validate_quest_dat`: each non-wrapping iteration advances the offset by
at least 16, so `data.length + 1` iterations of fuel suffice for every buffer
on which the C loop terminates. -/
def validate_quest_dat (data : List Nat) : Option Nat :=
  validateDatLoop data (data.length + 1) 0 0

/-- Termination of the `validate_quest_dat` walk: some amount of fuel
completes the loop. -/
def TerminatesDat (data : List Nat) : Prop :=
  ∃ fuel r, validateDatLoop data fuel 0 0 = some r

/-- The 16-byte `.dat` table header `{type, table_size, area, table_body_size}`
in little-endian bytes. -/
def encodeTableHeader (ty tsize area bsize : Nat) : List Nat :=
  encodeLE4 ty ++ encodeLE4 tsize ++ encodeLE4 area ++ encodeLE4 bsize

/-! ## Lemmas: size-only walk refines the decompressor -/

theorem prsCopyBytes_length (n : Nat) : ∀ (dst : List Nat) (start : Nat),
    (prsCopyBytes dst start n).length = dst.length + n := by
  induction n with
  | zero => intro dst start; simp [prsCopyBytes]
  | succ m ih =>
    intro dst start
    simp only [prsCopyBytes, ih]
    simp
    omega

/-- Whenever `prs_decompress`'s loop succeeds, the size-only loop makes the
same source reads and control-bit transitions and returns the number of bytes
the decompressor wrote. -/
theorem sizeLoop_refines_decompressLoop (src : List Nat) :
    ∀ (fuel : Nat) (s : PrsBits) (dst out : List Nat),
      prsDecompressLoop src fuel s dst = some out →
      prsDecompressSizeLoop src fuel s dst.length = some out.length := by
  intro fuel
  induction fuel with
  | zero => intro s dst out h; simp [prsDecompressLoop] at h
  | succ fuel ih =>
    intro s dst out h
    simp only [prsDecompressLoop] at h
    simp only [prsDecompressSizeLoop]
    cases hgb : prsGetBit src s with
    | none => rw [hgb] at h; exact absurd h (by simp)
    | some fs =>
      obtain ⟨flag, s1⟩ := fs
      rw [hgb] at h
      simp only at h ⊢
      by_cases hflag : flag = 1
      · rw [if_pos hflag] at h ⊢
        cases hb : src.get? s1.srcIdx with
        | none => rw [hb] at h; exact absurd h (by simp)
        | some b =>
          rw [hb] at h
          simpa using ih _ _ _ h
      · rw [if_neg hflag] at h ⊢
        cases hgb2 : prsGetBit src s1 with
        | none => rw [hgb2] at h; exact absurd h (by simp)
        | some fs2 =>
          obtain ⟨flag2, s2⟩ := fs2
          rw [hgb2] at h
          simp only at h ⊢
          by_cases hflag2 : flag2 = 1
          · rw [if_pos hflag2] at h ⊢
            cases hb1 : src.get? s2.srcIdx with
            | none => rw [hb1] at h; exact absurd h (by simp)
            | some b1 =>
              cases hb2 : src.get? (s2.srcIdx + 1) with
              | none => rw [hb1, hb2] at h; exact absurd h (by simp)
              | some b2 =>
                rw [hb1, hb2] at h
                simp only at h ⊢
                by_cases hoff : b2 * 256 + b1 = 0
                · rw [if_pos hoff] at h ⊢
                  cases h
                  rfl
                · rw [if_neg hoff] at h ⊢
                  cases hrl : prsReadLen src b1 { s2 with srcIdx := s2.srcIdx + 2 } with
                  | none => rw [hrl] at h; exact absurd h (by simp)
                  | some ls =>
                    obtain ⟨len, s4⟩ := ls
                    rw [hrl] at h
                    simp only at h ⊢
                    by_cases hl0 : len = 0
                    · rw [if_pos hl0] at h ⊢
                      exact ih _ _ _ h
                    · rw [if_neg hl0] at h ⊢
                      by_cases hoob : dst.length + (b2 * 256 + b1) / 8 < 8192
                      · rw [if_pos hoob] at h; exact absurd h (by simp)
                      · rw [if_neg hoob] at h
                        have := ih _ _ _ h
                        rwa [prsCopyBytes_length] at this
          · rw [if_neg hflag2] at h ⊢
            cases hgb3 : prsGetBit src s2 with
            | none => rw [hgb3] at h; exact absurd h (by simp)
            | some g1s3 =>
              obtain ⟨g1, s3⟩ := g1s3
              rw [hgb3] at h
              simp only at h ⊢
              cases hgb4 : prsGetBit src s3 with
              | none => rw [hgb4] at h; exact absurd h (by simp)
              | some g2s4 =>
                obtain ⟨g2, s4⟩ := g2s4
                rw [hgb4] at h
                simp only at h ⊢
                cases hb : src.get? s4.srcIdx with
                | none => rw [hb] at h; exact absurd h (by simp)
                | some b =>
                  rw [hb] at h
                  simp only at h ⊢
                  by_cases hl0 : (g1 * 2 ||| g2) + 2 = 0
                  · rw [if_pos hl0] at h ⊢
                    exact ih _ _ _ h
                  · rw [if_neg hl0] at h ⊢
                    by_cases hoob : dst.length + b < 256
                    · rw [if_pos hoob] at h; exact absurd h (by simp)
                    · rw [if_neg hoob] at h
                      have := ih _ _ _ h
                      rwa [prsCopyBytes_length] at this

/-- Top-level refinement: if `prs_decompress` succeeds, `prs_decompress_size`
returns exactly the length of the produced buffer. -/
theorem decompress_size_agrees (src out : List Nat)
    (h : prs_decompress src = some out) :
    prs_decompress_size src = some out.length := by
  unfold prs_decompress at h
  unfold prs_decompress_size
  cases hb : src.get? 0 with
  | none => rw [hb] at h; exact absurd h (by simp)
  | some b0 =>
    rw [hb] at h
    have := sizeLoop_refines_decompressLoop src (src.length + 1) ⟨9, b0, 1⟩ [] out h
    simpa using this

/-! ## Lemmas: cipher involution and field encodings -/

theorem cryptBytesFrom_involutive (ks : Nat → Nat → Nat) (key : Nat) :
    ∀ (bs : List Nat) (i : Nat),
      cryptBytesFrom ks key i (cryptBytesFrom ks key i bs) = bs := by
  intro bs
  induction bs with
  | nil => intro i; rfl
  | cons b rest ih =>
    intro i
    simp only [cryptBytesFrom, ih]
    rw [Nat.xor_assoc, Nat.xor_self, Nat.xor_zero]

/-- The cipher is symmetric: applying `crypt` twice with the same key is the
identity (claim source: spec §4.2). -/
theorem cryptBytes_involutive (ks : Nat → Nat → Nat) (key : Nat) (bs : List Nat) :
    cryptBytes ks key (cryptBytes ks key bs) = bs :=
  cryptBytesFrom_involutive ks key bs 0

theorem cryptBytesFrom_length (ks : Nat → Nat → Nat) (key : Nat) :
    ∀ (bs : List Nat) (i : Nat), (cryptBytesFrom ks key i bs).length = bs.length := by
  intro bs
  induction bs with
  | nil => intro i; rfl
  | cons b rest ih => intro i; simp [cryptBytesFrom, ih]

theorem cryptBytes_length (ks : Nat → Nat → Nat) (key : Nat) (bs : List Nat) :
    (cryptBytes ks key bs).length = bs.length :=
  cryptBytesFrom_length ks key bs 0

theorem encodeLE4_length (v : Nat) : (encodeLE4 v).length = 4 := rfl

theorem readU32_encodeLE4_at4 (a k : Nat) (rest : List Nat) (hk : k < 4294967296) :
    readU32 (encodeLE4 a ++ encodeLE4 k ++ rest) 4 = k := by
  simp only [encodeLE4, readU32, List.cons_append, List.nil_append, List.getD_cons_succ,
    List.getD_cons_zero]
  omega

theorem finalPayload_drop8 (ks : Nat → Nat → Nat) (key decompSize : Nat)
    (compressed : List Nat) :
    (finalPayload ks key decompSize compressed).drop 8 =
      cryptBytes ks (key % 4294967296) compressed := by
  simp [finalPayload, encodeLE4]

theorem finalPayload_length (ks : Nat → Nat → Nat) (key decompSize : Nat)
    (compressed : List Nat) :
    (finalPayload ks key decompSize compressed).length = 8 + compressed.length := by
  simp [finalPayload, encodeLE4, cryptBytes, cryptBytesFrom_length]
  omega

theorem finalPayload_key (ks : Nat → Nat → Nat) (key decompSize : Nat)
    (compressed : List Nat) :
    readU32 (finalPayload ks key decompSize compressed) 4 = key % 4294967296 := by
  unfold finalPayload
  rw [List.append_assoc]
  exact readU32_encodeLE4_at4 _ _ _ (Nat.mod_lt _ (by norm_num))

/-! ## Lemmas: fixed-width fields and C strings -/

theorem padN_length (n : Nat) (xs : List Nat) : (padN n xs).length = n := by
  simp [padN]

theorem padN_eq_append (n : Nat) (xs : List Nat) (h : xs.length ≤ n) :
    padN n xs = xs ++ List.replicate (n - xs.length) 0 := by
  unfold padN
  rw [List.take_append_eq_append_take, List.take_of_length_le h, List.take_replicate]
  congr 1
  congr 1
  omega

theorem cString_append_replicate (xs : List Nat) (m : Nat) (h : 0 ∉ xs) :
    cString (xs ++ List.replicate m 0) = xs := by
  induction xs with
  | nil =>
    cases m with
    | zero => rfl
    | succ k => simp [cString, List.replicate_succ]
  | cons a rest ih =>
    have ha : a ≠ 0 := fun hz => h (by simp [hz])
    have hr : 0 ∉ rest := fun hz => h (by simp [hz])
    simpa [cString, List.takeWhile_cons, ha] using ih hr

theorem cString_padN (n : Nat) (xs : List Nat) (hlen : xs.length ≤ n) (h : 0 ∉ xs) :
    cString (padN n xs) = xs := by
  rw [padN_eq_append n xs hlen]
  exact cString_append_replicate xs _ h

theorem strncmpEq_refl : ∀ (n : Nat) (xs : List Nat), strncmpEq n xs xs = true := by
  intro n
  induction n with
  | zero => intro xs; rfl
  | succ m ih =>
    intro xs
    cases xs with
    | nil => rfl
    | cons a rest =>
      simp only [strncmpEq]
      rw [if_neg (fun hh : a ≠ a => hh rfl)]
      by_cases h : a = 0
      · simp [h]
      · simp [h, ih rest]

theorem padN_cons (n : Nat) (a : Nat) (xs : List Nat) (h : xs.length ≤ n) :
    padN (n + 1) (a :: xs) = a :: padN n xs := by
  rw [padN_eq_append (n + 1) (a :: xs) (by simp; omega), padN_eq_append n xs h]
  simp

theorem padN_nil_succ (m : Nat) : padN (m + 1) ([] : List Nat) = 0 :: List.replicate m 0 := by
  rw [padN_eq_append _ _ (by simp)]
  simp [List.replicate_succ]

theorem strncmpEq_padN_iff : ∀ (n : Nat) (x y : List Nat), 0 ∉ x → 0 ∉ y →
    x.length ≤ n → y.length ≤ n →
    (strncmpEq n (padN n x) (padN n y) = true ↔ x = y) := by
  intro n
  induction n with
  | zero =>
    intro x y _ _ hx hy
    have hx0 : x = [] := List.length_eq_zero.mp (Nat.le_zero.mp hx)
    have hy0 : y = [] := List.length_eq_zero.mp (Nat.le_zero.mp hy)
    subst hx0; subst hy0
    simp [strncmpEq]
  | succ m ih =>
    intro x y hx0 hy0 hxl hyl
    cases x with
    | nil =>
      cases y with
      | nil => simp [strncmpEq_refl]
      | cons b ys =>
        have hb : b ≠ 0 := fun hz => hy0 (by simp [hz])
        rw [padN_cons m b ys (by simpa using hyl), padN_nil_succ]
        simp only [strncmpEq]
        rw [if_pos (show (0 : Nat) ≠ b from fun hh => hb hh.symm)]
        simp
    | cons a xs =>
      cases y with
      | nil =>
        have ha : a ≠ 0 := fun hz => hx0 (by simp [hz])
        rw [padN_cons m a xs (by simpa using hxl), padN_nil_succ]
        simp only [strncmpEq]
        rw [if_pos ha]
        simp
      | cons b ys =>
        have ha : a ≠ 0 := fun hz => hx0 (by simp [hz])
        have hxs : 0 ∉ xs := fun hz => hx0 (by simp [hz])
        have hys : 0 ∉ ys := fun hz => hy0 (by simp [hz])
        rw [padN_cons m a xs (by simpa using hxl), padN_cons m b ys (by simpa using hyl)]
        simp only [strncmpEq]
        by_cases hab : a = b
        · subst hab
          rw [if_neg (fun hh : a ≠ a => hh rfl), if_neg ha]
          rw [ih xs ys hxs hys (by simpa using hxl) (by simpa using hyl)]
          simp
        · rw [if_pos hab]
          simp [hab]

theorem string_ends_with_of_suffix (s t : List Nat) (h : t <:+ s) :
    string_ends_with s t = true := by
  obtain ⟨pre, rfl⟩ := h
  unfold string_ends_with
  have h1 : (pre ++ t).length - t.length = pre.length := by simp
  rw [h1, List.drop_left]
  simp

theorem string_ends_with_dat_not_bin (s : List Nat) (h : dotDat <:+ s) :
    string_ends_with s dotBin = false := by
  obtain ⟨pre, rfl⟩ := h
  unfold string_ends_with
  have h4 : (pre ++ dotDat).length - dotBin.length = pre.length := by
    simp [dotDat, dotBin]
  rw [h4, List.drop_left]
  simp [dotDat, dotBin]

/-! ## Lemmas: chunk framing and the reader loop -/

/-- The bytes a chunk contributes on reassembly: the first `size` bytes of its
1024-byte data field. -/
def chunkSlice (c : QstChunkRec) : List Nat := c.data.take c.size

/-- Concatenation of the chunk slices, in stream order. -/
def joinSlices : List QstChunkRec → List Nat
  | [] => []
  | c :: rest => chunkSlice c ++ joinSlices rest

theorem padN_self (n : Nat) (xs : List Nat) (h : xs.length = n) : padN n xs = xs := by
  rw [padN_eq_append n xs (by omega), h]
  simp

theorem chunkSlice_of_le (base : List Nat) (counter : Nat) (slice : List Nat)
    (h : slice.length ≤ 1024) :
    chunkSlice (generate_qst_data_chunk base counter slice slice.length) = slice := by
  simp only [chunkSlice, generate_qst_data_chunk]
  rw [padN_eq_append 1024 slice h]
  rw [List.take_append_eq_append_take]
  simp

theorem chunkSplit_join (base : List Nat) :
    ∀ (n : Nat) (rest : List Nat), rest.length ≤ n → ∀ (counter : Nat),
      joinSlices (chunkSplit base rest counter) = rest := by
  intro n
  induction n with
  | zero =>
    intro rest h counter
    have : rest.length ≤ 1024 := by omega
    rw [chunkSplit, dif_pos this]
    simp [joinSlices, chunkSlice_of_le base counter rest this]
  | succ m ih =>
    intro rest h counter
    by_cases h1 : rest.length ≤ 1024
    · rw [chunkSplit, dif_pos h1]
      simp [joinSlices, chunkSlice_of_le base counter rest h1]
    · rw [chunkSplit, dif_neg h1]
      simp only [joinSlices]
      rw [ih (rest.drop 1024) (by simp; omega) (counter + 1)]
      have htake : (rest.take 1024).length = 1024 := by simp; omega
      have : chunkSlice (generate_qst_data_chunk base counter (rest.take 1024) 1024) =
          rest.take 1024 := by
        have := chunkSlice_of_le base counter (rest.take 1024) (by omega)
        rwa [htake] at this
      rw [this, List.take_append_drop]

theorem chunkSplit_length (base : List Nat) :
    ∀ (n : Nat) (rest : List Nat), rest.length ≤ n → 1 ≤ rest.length → ∀ (counter : Nat),
      (chunkSplit base rest counter).length = (rest.length + 1023) / 1024 := by
  intro n
  induction n with
  | zero => intro rest h hpos counter; omega
  | succ m ih =>
    intro rest h hpos counter
    by_cases h1 : rest.length ≤ 1024
    · rw [chunkSplit, dif_pos h1]
      simp only [List.length_cons, List.length_nil]
      omega
    · rw [chunkSplit, dif_neg h1]
      simp only [List.length_cons]
      rw [ih (rest.drop 1024) (by simp; omega) (by simp; omega) (counter + 1)]
      simp only [List.length_drop]
      omega

theorem chunkSplit_forall (base : List Nat) :
    ∀ (n : Nat) (rest : List Nat), rest.length ≤ n → ∀ (counter : Nat),
      ∀ c ∈ chunkSplit base rest counter,
        c.pktId = 167 ∧ c.pktSize = 1048 ∧ c.filename = padN 16 base ∧
          c.data.length = 1024 ∧ c.size ≤ 1024 := by
  intro n
  induction n with
  | zero =>
    intro rest h counter c hc
    have h1 : rest.length ≤ 1024 := by omega
    rw [chunkSplit, dif_pos h1] at hc
    simp only [List.mem_singleton] at hc
    subst hc
    refine ⟨rfl, rfl, rfl, ?_, by simpa using h1⟩
    simp [generate_qst_data_chunk, padN_length]
  | succ m ih =>
    intro rest h counter c hc
    by_cases h1 : rest.length ≤ 1024
    · rw [chunkSplit, dif_pos h1] at hc
      simp only [List.mem_singleton] at hc
      subst hc
      refine ⟨rfl, rfl, rfl, ?_, by simpa using h1⟩
      simp [generate_qst_data_chunk, padN_length]
    · rw [chunkSplit, dif_neg h1] at hc
      rcases List.mem_cons.mp hc with hc | hc
      · subst hc
        refine ⟨rfl, rfl, rfl, ?_, by simp [generate_qst_data_chunk]⟩
        simp [generate_qst_data_chunk, padN_length]
      · exact ih (rest.drop 1024) (by simp; omega) (counter + 1) c hc

/-- A default chunk record, used only as the `getD` fallback. -/
def defaultChunk : QstChunkRec := generate_qst_data_chunk [] 0 [] 0

theorem chunkSplit_get_props (base : List Nat) :
    ∀ (n : Nat) (rest : List Nat), rest.length ≤ n → ∀ (counter i : Nat),
      i < (chunkSplit base rest counter).length →
      ((chunkSplit base rest counter).getD i defaultChunk).pktFlags = (counter + i) % 256 ∧
        ((chunkSplit base rest counter).getD i defaultChunk).size =
          (if i + 1 = (chunkSplit base rest counter).length then rest.length - 1024 * i
           else 1024) := by
  intro n
  induction n with
  | zero =>
    intro rest h counter i hi
    have h1 : rest.length ≤ 1024 := by omega
    rw [chunkSplit, dif_pos h1] at hi ⊢
    simp only [List.length_cons, List.length_nil] at hi
    interval_cases i
    simp [generate_qst_data_chunk, List.getD_cons_zero]
  | succ m ih =>
    intro rest h counter i hi
    by_cases h1 : rest.length ≤ 1024
    · rw [chunkSplit, dif_pos h1] at hi ⊢
      simp only [List.length_cons, List.length_nil] at hi
      interval_cases i
      simp [generate_qst_data_chunk, List.getD_cons_zero]
    · rw [chunkSplit, dif_neg h1] at hi ⊢
      have hpos : 1 ≤ (chunkSplit base (rest.drop 1024) (counter + 1)).length := by
        rw [chunkSplit_length base (rest.drop 1024).length (rest.drop 1024) le_rfl
          (by simp; omega) (counter + 1)]
        have : 1 ≤ (rest.drop 1024).length := by simp; omega
        omega
      cases i with
      | zero =>
        constructor
        · simp [generate_qst_data_chunk, List.getD_cons_zero]
        · rw [if_neg (by simp only [List.length_cons]; omega)]
          simp [generate_qst_data_chunk, List.getD_cons_zero]
      | succ j =>
        simp only [List.length_cons] at hi
        have hj : j < (chunkSplit base (rest.drop 1024) (counter + 1)).length := by omega
        have hrec := ih (rest.drop 1024) (by simp; omega) (counter + 1) j hj
        simp only [List.getD_cons_succ]
        constructor
        · rw [hrec.1]; congr 1; omega
        · rw [hrec.2]
          by_cases hlast : j + 1 = (chunkSplit base (rest.drop 1024) (counter + 1)).length
          · rw [if_pos hlast, if_pos (by simp only [List.length_cons]; omega)]
            simp only [List.length_drop]
            omega
          · rw [if_neg hlast, if_neg (by simp only [List.length_cons]; omega)]

theorem interleave_length : ∀ (xs ys : List QstChunkRec),
    (interleaveChunks xs ys).length = xs.length + ys.length := by
  intro xs
  induction xs with
  | nil => intro ys; simp [interleaveChunks]
  | cons x rest ih =>
    intro ys
    cases ys with
    | nil => simp [interleaveChunks]
    | cons y ys' =>
      simp only [interleaveChunks, List.length_cons, ih]
      omega

theorem mem_interleave : ∀ (xs ys : List QstChunkRec) (c : QstChunkRec),
    c ∈ interleaveChunks xs ys ↔ c ∈ xs ∨ c ∈ ys := by
  intro xs
  induction xs with
  | nil => intro ys c; simp [interleaveChunks]
  | cons x rest ih =>
    intro ys c
    cases ys with
    | nil => simp [interleaveChunks]
    | cons y ys' =>
      simp only [interleaveChunks, List.mem_cons, ih]
      tauto

/-- Pairs flattened in order: `[(a,b), ...] → [a, b, ...]`. -/
def zipAlternate : List (QstChunkRec × QstChunkRec) → List QstChunkRec
  | [] => []
  | p :: rest => p.1 :: p.2 :: zipAlternate rest

theorem interleave_eq_zipAlternate : ∀ (xs ys : List QstChunkRec),
    interleaveChunks xs ys =
      zipAlternate (xs.zip ys) ++ (xs.drop ys.length ++ ys.drop xs.length) := by
  intro xs
  induction xs with
  | nil => intro ys; simp [interleaveChunks, zipAlternate]
  | cons x rest ih =>
    intro ys
    cases ys with
    | nil => simp [interleaveChunks, zipAlternate]
    | cons y ys' =>
      simp only [interleaveChunks, List.zip_cons_cons, zipAlternate, List.length_cons,
        List.drop_succ_cons, List.cons_append]
      rw [ih ys']
      rfl

theorem filter_all_true {p : QstChunkRec → Bool} :
    ∀ (l : List QstChunkRec), (∀ c ∈ l, p c = true) → l.filter p = l := by
  intro l
  induction l with
  | nil => intro _; rfl
  | cons c rest ih =>
    intro h
    rw [List.filter_cons, if_pos (h c (by simp)), ih (fun d hd => h d (by simp [hd]))]

theorem filter_all_false {p : QstChunkRec → Bool} :
    ∀ (l : List QstChunkRec), (∀ c ∈ l, p c = false) → l.filter p = [] := by
  intro l
  induction l with
  | nil => intro _; rfl
  | cons c rest ih =>
    intro h
    rw [List.filter_cons, if_neg (by simp [h c (by simp)]), ih (fun d hd => h d (by simp [hd]))]

theorem interleave_filter_left {p : QstChunkRec → Bool} :
    ∀ (xs ys : List QstChunkRec), (∀ x ∈ xs, p x = true) → (∀ y ∈ ys, p y = false) →
      (interleaveChunks xs ys).filter p = xs := by
  intro xs
  induction xs with
  | nil =>
    intro ys _ hy
    simpa [interleaveChunks] using filter_all_false ys hy
  | cons x rest ih =>
    intro ys hx hy
    cases ys with
    | nil =>
      simpa [interleaveChunks] using filter_all_true (x :: rest) hx
    | cons y ys' =>
      simp only [interleaveChunks, List.filter_cons]
      rw [if_pos (hx x (by simp)), if_neg (by simp [hy y (by simp)])]
      rw [ih ys' (fun d hd => hx d (by simp [hd])) (fun d hd => hy d (by simp [hd]))]

theorem interleave_filter_right {p : QstChunkRec → Bool} :
    ∀ (xs ys : List QstChunkRec), (∀ x ∈ xs, p x = false) → (∀ y ∈ ys, p y = true) →
      (interleaveChunks xs ys).filter p = ys := by
  intro xs
  induction xs with
  | nil =>
    intro ys _ hy
    simpa [interleaveChunks] using filter_all_true ys hy
  | cons x rest ih =>
    intro ys hx hy
    cases ys with
    | nil =>
      simpa [interleaveChunks] using filter_all_false (x :: rest) hx
    | cons y ys' =>
      simp only [interleaveChunks, List.filter_cons]
      rw [if_neg (by simp [hx x (by simp)]), if_pos (hy y (by simp))]
      rw [ih ys' (fun d hd => hx d (by simp [hd])) (fun d hd => hy d (by simp [hd]))]

theorem joinSlices_append (l1 l2 : List QstChunkRec) :
    joinSlices (l1 ++ l2) = joinSlices l1 ++ joinSlices l2 := by
  induction l1 with
  | nil => simp [joinSlices]
  | cons c rest ih => simp [joinSlices, ih]

/-- Processing a run of chunk records: each is appended to the buffer whose
filename matches (bin checked first), with no size enforcement at all. -/
theorem loadQstLoop_chunks :
    ∀ (cs : List QstChunkRec) (s : QstReadState),
      (∀ c ∈ cs, strncmpEq 16 c.filename s.binName = true ∨
        strncmpEq 16 c.filename s.datName = true) →
      loadQstLoop (cs.map QstPacket.chunk) s = Except.ok
        { s with
          binAcc := s.binAcc ++
            joinSlices (cs.filter fun c => strncmpEq 16 c.filename s.binName)
          datAcc := s.datAcc ++
            joinSlices (cs.filter fun c =>
              !(strncmpEq 16 c.filename s.binName) && strncmpEq 16 c.filename s.datName) } := by
  intro cs
  induction cs with
  | nil => intro s _; simp [loadQstLoop, joinSlices]
  | cons c rest ih =>
    intro s h
    simp only [List.map_cons, loadQstLoop]
    by_cases hbin : strncmpEq 16 c.filename s.binName = true
    · rw [if_pos hbin]
      rw [ih { s with binAcc := s.binAcc ++ c.data.take c.size }
        (fun d hd => h d (by simp [hd]))]
      have hp : List.filter (fun d => strncmpEq 16 d.filename s.binName) (c :: rest) =
          c :: List.filter (fun d => strncmpEq 16 d.filename s.binName) rest := by
        rw [List.filter_cons, if_pos (by simpa using hbin)]
      have hq : List.filter
            (fun d => !strncmpEq 16 d.filename s.binName && strncmpEq 16 d.filename s.datName)
            (c :: rest) =
          List.filter
            (fun d => !strncmpEq 16 d.filename s.binName && strncmpEq 16 d.filename s.datName)
            rest := by
        rw [List.filter_cons, if_neg (by simp [hbin])]
      rw [hp, hq]
      simp [joinSlices, chunkSlice, List.append_assoc]
    · rw [if_neg hbin]
      have hdat : strncmpEq 16 c.filename s.datName = true :=
        (h c (by simp)).resolve_left hbin
      rw [if_pos hdat]
      rw [ih { s with datAcc := s.datAcc ++ c.data.take c.size }
        (fun d hd => h d (by simp [hd]))]
      have hb' : strncmpEq 16 c.filename s.binName = false := by
        simpa using hbin
      have hp : List.filter (fun d => strncmpEq 16 d.filename s.binName) (c :: rest) =
          List.filter (fun d => strncmpEq 16 d.filename s.binName) rest := by
        rw [List.filter_cons, if_neg (by simp [hb'])]
      have hq : List.filter
            (fun d => !strncmpEq 16 d.filename s.binName && strncmpEq 16 d.filename s.datName)
            (c :: rest) =
          c :: List.filter
            (fun d => !strncmpEq 16 d.filename s.binName && strncmpEq 16 d.filename s.datName)
            rest := by
        rw [List.filter_cons, if_pos (by simp [hb', hdat])]
      rw [hp, hq]
      simp [joinSlices, chunkSlice, List.append_assoc]

theorem bin_dat_base_ne (b d : List Nat) (hb : dotBin <:+ b) (hd : dotDat <:+ d) :
    b ≠ d := by
  intro he
  subst he
  obtain ⟨p1, hp1⟩ := hb
  obtain ⟨p2, hp2⟩ := hd
  have hl : p1.length = p2.length := by
    have e1 := congrArg List.length hp1
    have e2 := congrArg List.length hp2
    simp only [List.length_append] at e1 e2
    simp [dotBin, dotDat] at e1 e2
    omega
  have h1 : (p1 ++ dotBin).drop p1.length = dotBin := List.drop_left p1 dotBin
  have h2 : (p2 ++ dotDat).drop p2.length = dotDat := List.drop_left p2 dotDat
  rw [hp1] at h1
  rw [hp2] at h2
  rw [hl, h2] at h1
  exact absurd h1 (by decide)

/-- The offline round-trip property of claim C2: building a download `.qst`
record stream from compressed payloads, reading it back, and decrypting
recovers the compressed payloads byte for byte. -/
def OfflineQstRoundtrip (ks : Nat → Nat → Nat) (kb kd decompB decompD : Nat)
    (cbin cdat binBase datBase qname : List Nat) : Prop :=
  ∃ s, load_quest_from_qst
      (bindatToGcdlRecords ks kb kd decompB decompD cbin cdat binBase datBase qname) =
      Except.ok s ∧
    decrypt_qst_bindat ks s.binAcc s.datAcc = (cbin, cdat)

/-- Claim C2 main theorem body (used by the claim theorem below). -/
theorem offline_qst_roundtrip_aux (ks : Nat → Nat → Nat) (kb kd decompB decompD : Nat)
    (cbin cdat binBase datBase qname : List Nat)
    (hbl : binBase.length ≤ 16) (hdl : datBase.length ≤ 16)
    (hb0 : 0 ∉ binBase) (hd0 : 0 ∉ datBase)
    (hbs : dotBin <:+ binBase) (hds : dotDat <:+ datBase) :
    OfflineQstRoundtrip ks kb kd decompB decompD cbin cdat binBase datBase qname := by
  have hcsb : cString (padN 16 binBase) = binBase := cString_padN 16 binBase hbl hb0
  have hcsd : cString (padN 16 datBase) = datBase := cString_padN 16 datBase hdl hd0
  have hne : binBase ≠ datBase := bin_dat_base_ne binBase datBase hbs hds
  set finalBin := finalPayload ks kb decompB cbin with hfb
  set finalDat := finalPayload ks kd decompD cdat with hfd
  set bcs := chunkSplit binBase finalBin 0 with hbcs
  set dcs := chunkSplit datBase finalDat 0 with hdcs
  have step : load_quest_from_qst
      (bindatToGcdlRecords ks kb kd decompB decompD cbin cdat binBase datBase qname) =
      loadQstLoop ((interleaveChunks bcs dcs).map QstPacket.chunk)
        { binName := padN 16 binBase, datName := padN 16 datBase,
          binDeclared := finalBin.length, datDeclared := finalDat.length,
          binAcc := [], datAcc := [] } := by
    unfold bindatToGcdlRecords qstFrameRecords load_quest_from_qst
    simp only [loadQstLoop, generate_qst_header, initQstReadState, hcsb, hcsd,
      string_ends_with_of_suffix binBase dotBin hbs,
      string_ends_with_of_suffix datBase dotDat hds,
      string_ends_with_dat_not_bin datBase hds, Bool.false_eq_true, if_true, if_false]
  have hbf : ∀ c ∈ bcs, c.filename = padN 16 binBase := fun c hc =>
    (chunkSplit_forall binBase finalBin.length finalBin le_rfl 0 c hc).2.2.1
  have hdf : ∀ c ∈ dcs, c.filename = padN 16 datBase := fun c hc =>
    (chunkSplit_forall datBase finalDat.length finalDat le_rfl 0 c hc).2.2.1
  have hdb_ne : strncmpEq 16 (padN 16 datBase) (padN 16 binBase) = false := by
    cases hx : strncmpEq 16 (padN 16 datBase) (padN 16 binBase) with
    | false => rfl
    | true =>
      exact absurd ((strncmpEq_padN_iff 16 datBase binBase hd0 hb0 hdl hbl).mp hx)
        (fun he => hne he.symm)
  have route : ∀ c ∈ interleaveChunks bcs dcs,
      strncmpEq 16 c.filename (padN 16 binBase) = true ∨
        strncmpEq 16 c.filename (padN 16 datBase) = true := by
    intro c hc
    rcases (mem_interleave bcs dcs c).mp hc with hcb | hcd
    · left; rw [hbf c hcb]; exact strncmpEq_refl 16 (padN 16 binBase)
    · right; rw [hdf c hcd]; exact strncmpEq_refl 16 (padN 16 datBase)
  have main := loadQstLoop_chunks (interleaveChunks bcs dcs)
    { binName := padN 16 binBase, datName := padN 16 datBase,
      binDeclared := finalBin.length, datDeclared := finalDat.length,
      binAcc := [], datAcc := [] } route
  unfold OfflineQstRoundtrip
  refine ⟨_, step.trans main, ?_⟩
  have hfilterb : (interleaveChunks bcs dcs).filter
      (fun c => strncmpEq 16 c.filename (padN 16 binBase)) = bcs := by
    apply interleave_filter_left
    · intro x hx; rw [hbf x hx]; exact strncmpEq_refl 16 (padN 16 binBase)
    · intro y hy; rw [hdf y hy]; exact hdb_ne
  have hfilterd : (interleaveChunks bcs dcs).filter
      (fun c => !(strncmpEq 16 c.filename (padN 16 binBase)) &&
        strncmpEq 16 c.filename (padN 16 datBase)) = dcs := by
    apply interleave_filter_right
    · intro x hx; rw [hbf x hx]; simp [strncmpEq_refl]
    · intro y hy; rw [hdf y hy]; simp [strncmpEq_refl, hdb_ne]
  simp only [List.nil_append]
  rw [hfilterb, hfilterd]
  rw [chunkSplit_join binBase finalBin.length finalBin le_rfl 0]
  rw [chunkSplit_join datBase finalDat.length finalDat le_rfl 0]
  unfold decrypt_qst_bindat
  rw [hfb, hfd, finalPayload_key, finalPayload_key, finalPayload_drop8, finalPayload_drop8]
  rw [cryptBytes_involutive, cryptBytes_involutive]

/-! ## Lemmas and statement for the QST writer structure (claim C4) -/

theorem qstHeaderBytes_length (h : QstHeaderRec) : (qstHeaderBytes h).length = 60 := by
  simp [qstHeaderBytes, leBytes2, encodeLE4, padN_length]

theorem qstChunkBytes_length (c : QstChunkRec) : (qstChunkBytes c).length = 1048 := by
  simp [qstChunkBytes, leBytes2, encodeLE4, padN_length]

theorem padN_getD_zero (n : Nat) (xs : List Nat) (j d : Nat) (hx : xs.length ≤ j)
    (hj : j < n) : (padN n xs).getD j d = 0 := by
  rw [padN_eq_append n xs (by omega)]
  rw [List.getD_append_right xs _ d j hx]
  have hlt : j - xs.length < n - xs.length := by omega
  simp [List.getD, hlt]

theorem chunkSplit_zero_pad (base : List Nat) :
    ∀ (n : Nat) (rest : List Nat), rest.length ≤ n → ∀ (counter : Nat),
      ∀ c ∈ chunkSplit base rest counter, ∀ j, c.size ≤ j → j < 1024 →
        c.data.getD j 1 = 0 := by
  intro n
  induction n with
  | zero =>
    intro rest h counter c hc j hj1 hj2
    have h1 : rest.length ≤ 1024 := by omega
    rw [chunkSplit, dif_pos h1] at hc
    simp only [List.mem_singleton] at hc
    subst hc
    exact padN_getD_zero 1024 rest j 1 hj1 hj2
  | succ m ih =>
    intro rest h counter c hc j hj1 hj2
    by_cases h1 : rest.length ≤ 1024
    · rw [chunkSplit, dif_pos h1] at hc
      simp only [List.mem_singleton] at hc
      subst hc
      exact padN_getD_zero 1024 rest j 1 hj1 hj2
    · rw [chunkSplit, dif_neg h1] at hc
      rcases List.mem_cons.mp hc with hc | hc
      · subst hc
        simp only [generate_qst_data_chunk] at hj1
        omega
      · exact ih (rest.drop 1024) (by simp; omega) (counter + 1) c hc j hj1 hj2

/-- The structural contract of the QST chunk-framing stage (claim C4, with
the record size corrected from 1056 to 1048 bytes): two 60-byte header
records (bin first), then `⌈Sb/1024⌉ + ⌈Sd/1024⌉` chunk records of 1048
serialized bytes each, alternating one bin chunk and one dat chunk while both
files have data and then the longer file's chunks alone; each file's chunks
carry counters 0, 1, 2, ... (mod 256), a 1024-byte data field zero-padded
past the used length, and a `size` field of 1024 except the final chunk,
which carries the remaining byte count. -/
def QstWriterStructure (binBase datBase qname finalBin finalDat : List Nat) : Prop :=
  qstFrameRecords binBase datBase qname finalBin finalDat =
      QstPacket.header (generate_qst_header binBase finalBin.length qname) ::
        QstPacket.header (generate_qst_header datBase finalDat.length qname) ::
        (interleaveChunks (chunkSplit binBase finalBin 0) (chunkSplit datBase finalDat 0)).map
          QstPacket.chunk ∧
  (qstHeaderBytes (generate_qst_header binBase finalBin.length qname)).length = 60 ∧
  (qstHeaderBytes (generate_qst_header datBase finalDat.length qname)).length = 60 ∧
  (interleaveChunks (chunkSplit binBase finalBin 0) (chunkSplit datBase finalDat 0)).length =
    (finalBin.length + 1023) / 1024 + (finalDat.length + 1023) / 1024 ∧
  (∀ c ∈ interleaveChunks (chunkSplit binBase finalBin 0) (chunkSplit datBase finalDat 0),
    (qstChunkBytes c).length = 1048 ∧ c.pktSize = 1048 ∧ c.pktId = 167 ∧
      c.data.length = 1024) ∧
  interleaveChunks (chunkSplit binBase finalBin 0) (chunkSplit datBase finalDat 0) =
    zipAlternate ((chunkSplit binBase finalBin 0).zip (chunkSplit datBase finalDat 0)) ++
      ((chunkSplit binBase finalBin 0).drop (chunkSplit datBase finalDat 0).length ++
        (chunkSplit datBase finalDat 0).drop (chunkSplit binBase finalBin 0).length) ∧
  (∀ i, i < (chunkSplit binBase finalBin 0).length →
    ((chunkSplit binBase finalBin 0).getD i defaultChunk).pktFlags = i % 256 ∧
      ((chunkSplit binBase finalBin 0).getD i defaultChunk).size =
        (if i + 1 = (chunkSplit binBase finalBin 0).length then finalBin.length - 1024 * i
         else 1024)) ∧
  (∀ i, i < (chunkSplit datBase finalDat 0).length →
    ((chunkSplit datBase finalDat 0).getD i defaultChunk).pktFlags = i % 256 ∧
      ((chunkSplit datBase finalDat 0).getD i defaultChunk).size =
        (if i + 1 = (chunkSplit datBase finalDat 0).length then finalDat.length - 1024 * i
         else 1024)) ∧
  (∀ c ∈ interleaveChunks (chunkSplit binBase finalBin 0) (chunkSplit datBase finalDat 0),
    ∀ j, c.size ≤ j → j < 1024 → c.data.getD j 1 = 0)

/-- Claim C4 main theorem body. -/
theorem qst_writer_structure_aux (binBase datBase qname finalBin finalDat : List Nat)
    (hb : 1 ≤ finalBin.length) (hd : 1 ≤ finalDat.length) :
    QstWriterStructure binBase datBase qname finalBin finalDat := by
  refine ⟨rfl, qstHeaderBytes_length _, qstHeaderBytes_length _, ?_, ?_, ?_, ?_, ?_, ?_⟩
  · rw [interleave_length]
    rw [chunkSplit_length binBase finalBin.length finalBin le_rfl hb 0]
    rw [chunkSplit_length datBase finalDat.length finalDat le_rfl hd 0]
  · intro c hc
    rcases (mem_interleave _ _ c).mp hc with hcb | hcd
    · have := chunkSplit_forall binBase finalBin.length finalBin le_rfl 0 c hcb
      exact ⟨qstChunkBytes_length c, this.2.1, this.1, this.2.2.2.1⟩
    · have := chunkSplit_forall datBase finalDat.length finalDat le_rfl 0 c hcd
      exact ⟨qstChunkBytes_length c, this.2.1, this.1, this.2.2.2.1⟩
  · exact interleave_eq_zipAlternate _ _
  · intro i hi
    simpa using chunkSplit_get_props binBase finalBin.length finalBin le_rfl 0 i hi
  · intro i hi
    simpa using chunkSplit_get_props datBase finalDat.length finalDat le_rfl 0 i hi
  · intro c hc j hj1 hj2
    rcases (mem_interleave _ _ c).mp hc with hcb | hcd
    · exact chunkSplit_zero_pad binBase finalBin.length finalBin le_rfl 0 c hcb j hj1 hj2
    · exact chunkSplit_zero_pad datBase finalDat.length finalDat le_rfl 0 c hcd j hj1 hj2

/-! ## Lemmas and statements for the reader (C6), dat validator (C7, C10) -/

/-- The amended behavior of `load_quest_from_qst` (claim C6): after a `.bin`
header and a `.dat` header, any run of chunks naming one of the two announced
files loads successfully with every chunk appended in full — the declared
`size` values are recorded but never compared against the accumulated byte
counts, neither during appends nor at end of stream. -/
def QstReaderNoSizeEnforcement (hb hd : QstHeaderRec) (cs : List QstChunkRec) : Prop :=
  load_quest_from_qst
      (QstPacket.header hb :: QstPacket.header hd :: cs.map QstPacket.chunk) =
    Except.ok
      { binName := padN 16 (cString hb.filename), datName := padN 16 (cString hd.filename),
        binDeclared := hb.size, datDeclared := hd.size,
        binAcc := joinSlices (cs.filter fun c =>
          strncmpEq 16 c.filename (padN 16 (cString hb.filename))),
        datAcc := joinSlices (cs.filter fun c =>
          !(strncmpEq 16 c.filename (padN 16 (cString hb.filename))) &&
            strncmpEq 16 c.filename (padN 16 (cString hd.filename))) }

theorem qst_reader_no_size_check_aux (hb hd : QstHeaderRec) (cs : List QstChunkRec)
    (h1 : string_ends_with (cString hb.filename) dotBin = true)
    (h2 : string_ends_with (cString hd.filename) dotBin = false)
    (h3 : string_ends_with (cString hd.filename) dotDat = true)
    (h4 : ∀ c ∈ cs, strncmpEq 16 c.filename (padN 16 (cString hb.filename)) = true ∨
      strncmpEq 16 c.filename (padN 16 (cString hd.filename)) = true) :
    QstReaderNoSizeEnforcement hb hd cs := by
  unfold QstReaderNoSizeEnforcement load_quest_from_qst
  simp only [loadQstLoop, initQstReadState, h1, h2, h3, Bool.false_eq_true, if_true, if_false]
  rw [loadQstLoop_chunks cs _ h4]
  simp

/-- Helper: the four fields of a `.dat` table header read back from its
little-endian bytes. -/
theorem readU32_tableHeader (ty tsize area bsize : Nat) (rest : List Nat)
    (h1 : ty < 4294967296) (h2 : tsize < 4294967296) (h3 : area < 4294967296)
    (h4 : bsize < 4294967296) :
    readU32 (encodeTableHeader ty tsize area bsize ++ rest) 0 = ty ∧
      readU32 (encodeTableHeader ty tsize area bsize ++ rest) 4 = tsize ∧
      readU32 (encodeTableHeader ty tsize area bsize ++ rest) 8 = area ∧
      readU32 (encodeTableHeader ty tsize area bsize ++ rest) 12 = bsize := by
  simp only [encodeTableHeader, encodeLE4, List.cons_append, List.nil_append, readU32,
    List.getD_cons_zero, List.getD_cons_succ]
  refine ⟨by omega, by omega, by omega, by omega⟩

/-- The amended table-body-size behavior of `validate_quest_dat` (claim C7):
on a single non-sentinel table, the `QUESTDAT_ERROR_TABLE_BODY_SIZE` flag
(bit 1) is set exactly when `table_size + 16 = table_body_size` (the code
compares `table_size` against `table_body_size - 16` computed in unsigned
64-bit arithmetic, so for `table_body_size < 16` the flag is never set) —
not, as the claim states, when `table_size + 16 ≠ table_body_size`. -/
def DatTableSizeFlagBehavior (ty tsize area bsize : Nat) (body : List Nat) : Prop :=
  ∃ flags, validate_quest_dat (encodeTableHeader ty tsize area bsize ++ body) = some flags ∧
    ((flags &&& 2 ≠ 0) ↔ (16 ≤ bsize ∧ tsize + 16 = bsize))

theorem validate_dat_table_size_flag_aux (ty tsize area bsize : Nat) (body : List Nat)
    (h1 : ty < 4294967296) (h2 : tsize < 4294967296) (h3 : area < 4294967296)
    (h4 : bsize < 4294967280) (hbody : body.length = bsize)
    (hns : ¬(ty = 0 ∧ tsize = 0 ∧ area = 0 ∧ bsize = 0)) :
    DatTableSizeFlagBehavior ty tsize area bsize body := by
  obtain ⟨e0, e4, e8, e12⟩ :=
    readU32_tableHeader ty tsize area bsize body h1 h2 h3 (by omega)
  have hlen : (encodeTableHeader ty tsize area bsize ++ body).length = 16 + bsize := by
    simp [encodeTableHeader, encodeLE4, hbody]
    omega
  unfold DatTableSizeFlagBehavior validate_quest_dat
  have hfuel : ∃ m, (encodeTableHeader ty tsize area bsize ++ body).length + 1 = m + 2 := by
    rw [hlen]; exact ⟨bsize + 15, by omega⟩
  obtain ⟨m, hm⟩ := hfuel
  rw [hm]
  simp only [validateDatLoop]
  rw [e0, e4, e8, e12, hlen]
  rw [if_pos (by omega)]
  rw [if_neg hns]
  have hmod : (0 + 16 + bsize) % 4294967296 = 16 + bsize := by omega
  by_cases hmis : tsize = (bsize + 18446744073709551600) % 18446744073709551616
  · rw [if_pos hmis]
    rw [hmod]
    rw [if_neg (by omega)]
    refine ⟨_, rfl, ?_⟩
    constructor
    · intro _; omega
    · intro _
      by_cases hty : 5 < ty
      · rw [if_pos hty]; decide
      · rw [if_neg hty]; decide
  · rw [if_neg hmis]
    rw [hmod]
    rw [if_neg (by omega)]
    refine ⟨_, rfl, ?_⟩
    constructor
    · intro hcon
      exfalso
      by_cases hty : 5 < ty
      · rw [if_pos hty] at hcon; exact hcon (by decide)
      · rw [if_neg hty] at hcon; exact hcon (by decide)
    · intro hc
      exact absurd (by omega : tsize = (bsize + 18446744073709551600) %
        18446744073709551616) hmis

/-- The amended termination property of `validate_quest_dat` (claim C10): the
walk terminates on every buffer whose table advances never overflow the
32-bit offset; without that restriction it need not terminate. -/
theorem validate_dat_terminates_aux (data : List Nat)
    (hno : ∀ off, off < data.length → off + 16 + readU32 data (off + 12) < 4294967296) :
    TerminatesDat data := by
  have key : ∀ (n offset result : Nat), data.length - offset < n →
      ∃ r, validateDatLoop data n offset result = some r := by
    intro n
    induction n with
    | zero => intro offset result hlt; omega
    | succ m ih =>
      intro offset result hlt
      simp only [validateDatLoop]
      by_cases hin : offset < data.length
      · rw [if_pos hin]
        have hwrap : (offset + 16 + readU32 data (offset + 12)) % 4294967296 =
            offset + 16 + readU32 data (offset + 12) := by
          have := hno offset hin
          omega
        by_cases hsent : readU32 data offset = 0 ∧ readU32 data (offset + 4) = 0 ∧
            readU32 data (offset + 8) = 0 ∧ readU32 data (offset + 12) = 0
        · rw [if_pos hsent]
          by_cases heof : offset + 16 = data.length
          · rw [if_pos heof]
            exact ih _ _ (by omega)
          · rw [if_neg heof]
            exact ⟨_, rfl⟩
        · rw [if_neg hsent]
          refine ih _ _ ?_
          rw [hwrap]
          omega
      · rw [if_neg hin]
        exact ⟨_, rfl⟩
  obtain ⟨r, hr⟩ := key (data.length + 1) 0 0 (by omega)
  exact ⟨data.length + 1, r, hr⟩

/-! ## Lemmas and statement for the bin recovery handler (claim C8) -/

/-- The amended recovery behavior of `handle_quest_bin_validation_issues`
(claim C8): writing `r` for the first validation result and `p` for the
handler's output (remaining result, adjusted length): (i) the handler's
returned result always has flags 2, 4 and 16 cleared — the LARGER flag (2) is
cleared unconditionally, not only in the one-byte-short case; (ii)
re-validating at the adjusted length yields a subset of the original flags;
(iii) after a SMALLER (4) recovery, re-validation reports no size flag; (iv)
after a LARGER (2) recovery with the length exactly one short of `bin_size`,
one zero byte is appended (the length grows by one) and re-validation reports
no size flag; (v) an EPISODE (16) flag is reported again by re-validation,
since the handler never edits the header. -/
def BinRecoveryBehavior (h : QuestBinHeader) (len : Nat) : Prop :=
  let r := validate_quest_bin h len
  let p := handle_quest_bin_validation_issues r h len
  (p.1 &&& 22 = 0) ∧
  (validate_quest_bin h p.2 &&& r = validate_quest_bin h p.2) ∧
  (r &&& 4 ≠ 0 → validate_quest_bin h p.2 &&& 6 = 0) ∧
  (r &&& 2 ≠ 0 → len + 1 = h.bin_size →
    p.2 = len + 1 ∧ validate_quest_bin h p.2 &&& 6 = 0) ∧
  (r &&& 16 ≠ 0 → validate_quest_bin h p.2 &&& 16 = 16)

/-- Claim C8 main theorem body: case enumeration over the four validator
conditions and the length/`bin_size` ordering. -/
theorem bin_recovery_aux (h : QuestBinHeader) (len : Nat) :
    BinRecoveryBehavior h len := by
  unfold BinRecoveryBehavior
  rcases Nat.lt_trichotomy h.bin_size len with hsz | hsz | hsz
  · have hns : ¬ len < h.bin_size := by omega
    have hbb : ¬ h.bin_size < h.bin_size := by omega
    by_cases hA : h.object_code_offset ≠ 468 <;>
      by_cases hC : (h.name.takeWhile (fun x => !decide (x = 0))).length = 0 <;>
      by_cases hD : 1 < h.episode <;>
      simp +decide [validate_quest_bin, handle_quest_bin_validation_issues,
        hA, hC, hD, hsz, hns, hbb, -List.takeWhile_eq_nil_iff, -List.length_eq_zero]
  · have h1 : ¬ h.bin_size < len := by omega
    have h2 : ¬ len < h.bin_size := by omega
    by_cases hA : h.object_code_offset ≠ 468 <;>
      by_cases hC : (h.name.takeWhile (fun x => !decide (x = 0))).length = 0 <;>
      by_cases hD : 1 < h.episode <;>
      simp +decide [validate_quest_bin, handle_quest_bin_validation_issues,
        hA, hC, hD, h1, h2, -List.takeWhile_eq_nil_iff, -List.length_eq_zero]
  · have hns : ¬ h.bin_size < len := by omega
    by_cases hlen1 : len + 1 = h.bin_size
    · have hq1 : ¬ h.bin_size < len + 1 := by omega
      have hq2 : ¬ len + 1 < h.bin_size := by omega
      by_cases hA : h.object_code_offset ≠ 468 <;>
        by_cases hC : (h.name.takeWhile (fun x => !decide (x = 0))).length = 0 <;>
        by_cases hD : 1 < h.episode <;>
        simp +decide [validate_quest_bin, handle_quest_bin_validation_issues,
          hA, hC, hD, hsz, hns, hlen1, hq1, hq2, -List.takeWhile_eq_nil_iff,
          -List.length_eq_zero]
    · by_cases hA : h.object_code_offset ≠ 468 <;>
        by_cases hC : (h.name.takeWhile (fun x => !decide (x = 0))).length = 0 <;>
        by_cases hD : 1 < h.episode <;>
        simp +decide [validate_quest_bin, handle_quest_bin_validation_issues,
          hA, hC, hD, hsz, hns, hlen1, -List.takeWhile_eq_nil_iff, -List.length_eq_zero]

/-! ## Claim theorems, witnesses and counterexamples -/

/-- C1: PRS compressor/decompressor round-trip — falsified.  For the 7-byte
input `[9,0,0,0,9,0,0]`, `prs_compress` emits a back-reference of length 5
(its match search `memcmp`s three bytes past the end of the input and extends
the match without re-checking the remaining length), so decompressing the
compressed stream yields 8 bytes, not the original 7. -/
theorem prs_roundtrip_violation :
    prs_compress [9, 0, 0, 0, 9, 0, 0] = [31, 9, 0, 0, 0, 9, 5, 252, 0, 0] ∧
      prs_decompress [31, 9, 0, 0, 0, 9, 5, 252, 0, 0] = some [9, 0, 0, 0, 9, 0, 0, 0] ∧
      prs_decompress (prs_compress [9, 0, 0, 0, 9, 0, 0]) ≠ some [9, 0, 0, 0, 9, 0, 0] :=
  ⟨by decide, by decide, by decide⟩

/-- C2: offline QST round-trip.  For any compressed `.bin`/`.dat` payloads,
base filenames of at most 16 NUL-free bytes ending ".bin" and ".dat"
respectively, any quest name, any declared decompressed sizes and any two
wrapper crypt keys, writing a download QST (wrapper, encryption, chunk
framing) and reading it back with `load_quest_from_qst` then
`decrypt_qst_bindat` recovers both compressed payloads byte-for-byte.  The
cipher keystream `ks` is arbitrary, so the statement holds regardless of the
randomly chosen crypt keys. -/
theorem offline_qst_roundtrip (ks : Nat → Nat → Nat) (kb kd decompB decompD : Nat)
    (cbin cdat binBase datBase qname : List Nat)
    (hbl : binBase.length ≤ 16) (hdl : datBase.length ≤ 16)
    (hb0 : 0 ∉ binBase) (hd0 : 0 ∉ datBase)
    (hbs : dotBin <:+ binBase) (hds : dotDat <:+ datBase) :
    OfflineQstRoundtrip ks kb kd decompB decompD cbin cdat binBase datBase qname :=
  offline_qst_roundtrip_aux ks kb kd decompB decompD cbin cdat binBase datBase qname
    hbl hdl hb0 hd0 hbs hds

/-- Witness for C2 at a concrete instance with a nontrivial keystream. -/
theorem offline_qst_roundtrip_witness :
    OfflineQstRoundtrip (fun k i => (k + i) % 256) 3 4 10 20 [1, 2, 3] [4, 5]
      [113, 46, 98, 105, 110] [113, 46, 100, 97, 116] [81] :=
  offline_qst_roundtrip (fun k i => (k + i) % 256) 3 4 10 20 [1, 2, 3] [4, 5]
    [113, 46, 98, 105, 110] [113, 46, 100, 97, 116] [81]
    (by decide) (by decide) (by decide) (by decide) ⟨[113], rfl⟩ ⟨[113], rfl⟩

/-- C3: amended size-only consistency.  `prs_decompress_size` returns exactly
the length of the buffer `prs_decompress` produces on every stream the
decompressor accepts (the size-only walk makes the same bit reads, source
advances and termination decisions); but on compressor output that count is
the decompressor's output length, which claim C1's bug makes different from
`|X|` for some inputs `X`. -/
theorem prs_size_walk_agrees (src out : List Nat)
    (h : prs_decompress src = some out) : prs_decompress_size src = some out.length :=
  decompress_size_agrees src out h

/-- Witness for C3: a hand-built stream of three literals and the terminator. -/
theorem prs_size_walk_agrees_witness :
    prs_decompress_size [23, 1, 2, 3, 0, 0] = some 3 :=
  prs_size_walk_agrees [23, 1, 2, 3, 0, 0] [1, 2, 3] (by decide)

/-- Counterexample for C3's claim that the count equals `|X|` on compressor
output: for the 7-byte input of claim C1 the size-only walk reports 8. -/
theorem prs_size_walk_vs_input_length :
    prs_decompress_size (prs_compress [9, 0, 0, 0, 9, 0, 0]) = some 8 ∧
      List.length [9, 0, 0, 0, 9, 0, 0] ≠ 8 :=
  ⟨by decide, by decide⟩

/-- C4: QST writer output structure, with the chunk record size corrected
from the claimed 1056 bytes to the 1048 bytes `sizeof(QST_DATA_CHUNK)`
actually is (1 + 1 + 2 + 16 + 1024 + 4, packed): two 60-byte header records
(bin first), `⌈Sb/1024⌉ + ⌈Sd/1024⌉` chunk records of 1048 bytes alternating
while both files have data then the longer file's alone, per-file counters
0, 1, ... (mod 256), 1024-byte data fields zero-padded past the used length,
and `size` 1024 except each file's final chunk, which carries the
remainder. -/
theorem qst_writer_structure (binBase datBase qname finalBin finalDat : List Nat)
    (hb : 1 ≤ finalBin.length) (hd : 1 ≤ finalDat.length) :
    QstWriterStructure binBase datBase qname finalBin finalDat :=
  qst_writer_structure_aux binBase datBase qname finalBin finalDat hb hd

/-- Witness for C4 at concrete one-chunk payloads. -/
theorem qst_writer_structure_witness :
    QstWriterStructure [98, 46, 98, 105, 110] [100, 46, 100, 97, 116] [81] [1] [2, 3] :=
  qst_writer_structure [98, 46, 98, 105, 110] [100, 46, 100, 97, 116] [81] [1] [2, 3]
    (by decide) (by decide)

/-- Counterexample for C4's record size: a serialized chunk record is 1048
bytes, not 1056. -/
theorem qst_chunk_record_size :
    (qstChunkBytes (generate_qst_data_chunk [113, 46, 98, 105, 110] 0 [1] 1)).length =
        1048 ∧
      (1048 : Nat) ≠ 1056 :=
  ⟨qstChunkBytes_length _, by decide⟩

/-- The amended download-preparation behavior (claim C5): the 8-byte wrapper
holds `decompressed_size + 8` and the crypt key (32-bit little-endian each),
only the bytes after the wrapper are encrypted, and the recorded size is
wrapper plus the raw compressed byte count — no padding of any kind is
applied, so the encrypted length is not rounded up to a multiple of 4. -/
def DownloadWrapperBehavior (ks : Nat → Nat → Nat) (key decompSize : Nat)
    (compressed : List Nat) : Prop :=
  (finalPayload ks key decompSize compressed).take 8 =
      encodeLE4 ((decompSize + 8) % 4294967296) ++ encodeLE4 (key % 4294967296) ∧
  readU32 (finalPayload ks key decompSize compressed) 4 = key % 4294967296 ∧
  (finalPayload ks key decompSize compressed).length = 8 + compressed.length ∧
  cryptBytes ks (key % 4294967296)
      ((finalPayload ks key decompSize compressed).drop 8) = compressed

/-- C5: download QST preparation, with the padding part of the claim
corrected — the pipeline prepends the 8-byte wrapper `{decompressed_size + 8,
crypt_key}` and encrypts exactly the `compressed.length` bytes after it in
place, but it never zero-pads to a multiple of 4: the recorded size is
`8 + compressed.length` for every payload length. -/
theorem download_wrapper_behavior (ks : Nat → Nat → Nat) (key decompSize : Nat)
    (compressed : List Nat) : DownloadWrapperBehavior ks key decompSize compressed := by
  refine ⟨?_, finalPayload_key ks key decompSize compressed,
    finalPayload_length ks key decompSize compressed, ?_⟩
  · simp [finalPayload, encodeLE4]
  · rw [finalPayload_drop8, cryptBytes_involutive]

/-- Counterexample for C5's padding requirement: a 5-byte compressed payload
is framed as 13 bytes (8-byte wrapper plus 5 encrypted bytes), and the
encrypted byte count 13 − 8 = 5 is not a multiple of 4. -/
theorem download_wrapper_no_padding :
    finalPayload (fun _ _ => 0) 5 100 [1, 2, 3, 4, 5] =
        [108, 0, 0, 0, 5, 0, 0, 0, 1, 2, 3, 4, 5] ∧
      (finalPayload (fun _ _ => 0) 5 100 [1, 2, 3, 4, 5]).length = 13 ∧
      ¬ (4 ∣ (13 - 8 : Nat)) :=
  ⟨by decide, by decide, by decide⟩

/-- Concrete `.bin` header record for claims about the QST reader: filename
"q.bin", declared size 1. -/
def cexBinHdr : QstHeaderRec :=
  { pktId := 166, pktFlags := 0, pktSize := 60, name := [], unused := 0, flags := 0,
    filename := [113, 46, 98, 105, 110], size := 1 }

/-- Concrete `.dat` header record: filename "q.dat", declared size 0. -/
def cexDatHdr : QstHeaderRec :=
  { pktId := 166, pktFlags := 0, pktSize := 60, name := [], unused := 0, flags := 0,
    filename := [113, 46, 100, 97, 116], size := 0 }

/-- Concrete chunk record carrying 3 bytes for "q.bin". -/
def cexChunk : QstChunkRec :=
  { pktId := 167, pktFlags := 0, pktSize := 1048, filename := padN 16 [113, 46, 98, 105, 110],
    data := [7, 7, 7], size := 3 }

/-- C6: QST reader size enforcement, corrected — `load_quest_from_qst` never
compares the accumulated chunk bytes against the sizes declared in the header
records: any run of chunks naming the two announced files loads successfully,
every chunk appended in full, whether the accumulated counts fall short of,
meet, or exceed the declared sizes. -/
theorem qst_reader_no_size_enforcement (hb hd : QstHeaderRec) (cs : List QstChunkRec)
    (h1 : string_ends_with (cString hb.filename) dotBin = true)
    (h2 : string_ends_with (cString hd.filename) dotBin = false)
    (h3 : string_ends_with (cString hd.filename) dotDat = true)
    (h4 : ∀ c ∈ cs, strncmpEq 16 c.filename (padN 16 (cString hb.filename)) = true ∨
      strncmpEq 16 c.filename (padN 16 (cString hd.filename)) = true) :
    QstReaderNoSizeEnforcement hb hd cs :=
  qst_reader_no_size_check_aux hb hd cs h1 h2 h3 h4

/-- Witness for C6 at the concrete records. -/
theorem qst_reader_no_size_enforcement_witness :
    QstReaderNoSizeEnforcement cexBinHdr cexDatHdr [cexChunk] :=
  qst_reader_no_size_enforcement cexBinHdr cexDatHdr [cexChunk]
    (by decide) (by decide) (by decide) (by decide)

/-- Counterexample for C6: the bin header declares 1 byte, a 3-byte chunk
arrives, and the read still completes successfully with all 3 bytes appended
— no error for exceeding the declared size, and success without the
accumulated count equalling it. -/
theorem qst_reader_accepts_wrong_sizes :
    load_quest_from_qst
        [QstPacket.header cexBinHdr, QstPacket.header cexDatHdr, QstPacket.chunk cexChunk] =
      Except.ok
        { binName := padN 16 [113, 46, 98, 105, 110],
          datName := padN 16 [113, 46, 100, 97, 116],
          binDeclared := 1, datDeclared := 0, binAcc := [7, 7, 7], datAcc := [] } ∧
      ¬ ((3 : Nat) ≤ 1) :=
  ⟨rfl, by decide⟩

/-- C7: dat validator table-size flag, corrected — the code compares
`table_size` against `table_body_size - 16` in unsigned arithmetic, so on a
single non-sentinel table the `QUESTDAT_ERROR_TABLE_BODY_SIZE` flag is set
exactly when `table_size + 16 = table_body_size` (with `table_body_size ≥
16`), the opposite of the claimed `table_size + 16 ≠ table_body_size`. -/
theorem dat_table_size_flag (ty tsize area bsize : Nat) (body : List Nat)
    (h1 : ty < 4294967296) (h2 : tsize < 4294967296) (h3 : area < 4294967296)
    (h4 : bsize < 4294967280) (hbody : body.length = bsize)
    (hns : ¬(ty = 0 ∧ tsize = 0 ∧ area = 0 ∧ bsize = 0)) :
    DatTableSizeFlagBehavior ty tsize area bsize body :=
  validate_dat_table_size_flag_aux ty tsize area bsize body h1 h2 h3 h4 hbody hns

/-- Witness for C7: a type-1 table with `table_size = 0` and
`table_body_size = 16`. -/
theorem dat_table_size_flag_witness :
    DatTableSizeFlagBehavior 1 0 0 16 (List.replicate 16 0) :=
  dat_table_size_flag 1 0 0 16 (List.replicate 16 0)
    (by decide) (by decide) (by decide) (by decide) (by decide) (by decide)

/-- Counterexample for C7 in both directions: a non-sentinel table with
`table_size + 16 ≠ table_body_size` (0 + 16 ≠ 0) draws no flag, while one
with `table_size + 16 = table_body_size` (0 + 16 = 16) draws flag 2. -/
theorem dat_table_size_flag_inverted :
    validate_quest_dat (encodeTableHeader 1 0 0 0) = some 0 ∧
      (0 : Nat) + 16 ≠ 0 ∧
      validate_quest_dat (encodeTableHeader 1 0 0 16 ++ List.replicate 16 0) = some 2 ∧
      (0 : Nat) + 16 = 16 :=
  ⟨by decide, by decide, by decide, by decide⟩

/-- C8: bin recovery convergence, corrected — re-validating after
`handle_quest_bin_validation_issues` always yields a subset of the original
flags, SMALLER recoveries and one-byte-short LARGER recoveries eliminate the
size flags, and the handler's returned result has flags 2, 4 and 16 cleared;
but the LARGER flag (2) is cleared from the result unconditionally — not
"only when actual length == declared bin_size - 1" as claimed — and an
EPISODE flag always reappears on re-validation since the header is never
edited. -/
theorem bin_recovery_convergence (h : QuestBinHeader) (len : Nat) :
    BinRecoveryBehavior h len :=
  bin_recovery_aux h len

/-- Concrete `.bin` header for the C8 counterexample: valid but for
`bin_size = 10` against an actual length of 5. -/
def cexBinHeader : QuestBinHeader :=
  { object_code_offset := 468, function_offset_table_offset := 0, bin_size := 10,
    xffffffff := 4294967295, download := 0, unknown := 0, quest_number_byte := 1,
    episode := 0, name := [65] }

/-- Counterexample for C8's "cleared only when actual == declared − 1": with
actual length 5 and `bin_size` 10 the validator reports the LARGER flag (2),
the handler clears it anyway (returning result 0 and leaving the length at
5, which is not `bin_size - 1`), and re-validation reports flag 2 again — the
re-validation flag set does not exclude the recovered flag. -/
theorem bin_larger_flag_cleared_without_fix :
    validate_quest_bin cexBinHeader 5 = 2 ∧
      handle_quest_bin_validation_issues 2 cexBinHeader 5 = (0, 5) ∧
      validate_quest_bin cexBinHeader
          (handle_quest_bin_validation_issues 2 cexBinHeader 5).2 = 2 ∧
      (5 : Nat) ≠ 10 - 1 :=
  ⟨by decide, by decide, by decide, by decide⟩

/-- C9: compressed-size upper bound — falsified.  For the 6-byte
incompressible input `[0,1,2,3,4,5]`, `prs_compress` writes 10 bytes
(6 literals, two control bytes — the second one the uninitialized trailing
byte `prs_finish` flushes — and the 2-byte terminator) while
`prs_max_compressed_size 6 = 6 + (6 >>> 3) + 1 + 2 = 9`: a caller that
allocates the advertised bound overflows by one byte. -/
theorem prs_compress_exceeds_bound :
    (prs_compress [0, 1, 2, 3, 4, 5]).length = 10 ∧
      prs_max_compressed_size (List.length [0, 1, 2, 3, 4, 5]) = 9 ∧
      ¬ ((prs_compress [0, 1, 2, 3, 4, 5]).length ≤
          prs_max_compressed_size (List.length [0, 1, 2, 3, 4, 5])) :=
  ⟨by decide, by decide, by decide⟩

/-- C10: termination of the `validate_quest_dat` table walk, corrected — the
walk terminates whenever no table advance overflows the 32-bit offset; the
counterexample below shows a 16-byte buffer on which the offset wraps to 0
and the walk never terminates. -/
theorem dat_walk_termination (data : List Nat)
    (hno : ∀ off, off < data.length → off + 16 + readU32 data (off + 12) < 4294967296) :
    TerminatesDat data :=
  validate_dat_terminates_aux data hno

/-- Witness for C10: a single table header with `table_body_size = 0`. -/
theorem dat_walk_termination_witness : TerminatesDat (encodeTableHeader 0 1 0 0) :=
  dat_walk_termination (encodeTableHeader 0 1 0 0) (by decide)

/-- A 16-byte table header whose `table_body_size` 4294967280 makes the
offset advance `0 + 16 + 4294967280` wrap to 0 modulo 2^32. -/
def cexWrapData : List Nat := encodeTableHeader 1 0 0 4294967280

theorem validateDatLoop_wrap_cycle :
    ∀ fuel result, validateDatLoop cexWrapData fuel 0 result = none := by
  intro fuel
  induction fuel with
  | zero => intro result; rfl
  | succ m ih =>
    intro result
    have hstep : validateDatLoop cexWrapData (m + 1) 0 result =
        validateDatLoop cexWrapData m 0 result := by
      conv_lhs => rw [validateDatLoop]
      simp [cexWrapData, encodeTableHeader, encodeLE4, readU32]
    rw [hstep]
    exact ih result

/-- Counterexample for C10: on the wrapping buffer the walk revisits offset 0
forever — no amount of fuel completes it, and in particular the fueled
`validate_quest_dat` gives up. -/
theorem dat_walk_nontermination :
    (¬ TerminatesDat cexWrapData) ∧ validate_quest_dat cexWrapData = none := by
  constructor
  · rintro ⟨fuel, r, hr⟩
    rw [validateDatLoop_wrap_cycle fuel 0] at hr
    exact Option.noConfusion hr
  · exact validateDatLoop_wrap_cycle (cexWrapData.length + 1) 0
